import Mathlib

/-!
# Path-Planning: A* with a strict expanded list

A shallow embedding of `planning/lib/node.hpp` and `planning/lib/a_star_sel.hpp`.

* `Node::Size` is `std::size_t`; it is embedded as `Nat` with every arithmetic
  operation reduced modulo `2^64`.
* `Node::Path` is `std::string`; it is embedded as the list of its characters.
* `Node::goes.at` throws on a character that is not a key of the table, so
  `Node.coordinate` returns an `Option`.
* The search loop need not terminate, so it is embedded with a bound on the
  number of iterations; `none` means the bound was reached.
-/

namespace search

/-! ## node.hpp -/

/-- The number of values of `std::size_t`. -/
def wordSize : Nat := 18446744073709551616

/-- Unsigned addition `a + k` on `std::size_t`. -/
def addSize (a k : Nat) : Nat := (a + k) % wordSize

/-- Unsigned subtraction `a - k` on `std::size_t`, for a constant `k ≤ 2^64`. -/
def subSize (a k : Nat) : Nat := (a + (wordSize - k)) % wordSize

/-- The struct `Node::Coordinate`. -/
structure Coordinate where
  x : Nat
  y : Nat
deriving DecidableEq, Repr

/-- The class `Node`: its only data member is `_path`. -/
structure Node where
  path : List Char
deriving DecidableEq, Repr

/-- The table `Node::goes`, entry by entry; `none` for a character that is not a key
(where `std::map::at` throws). -/
def Node.goes (direction : Char) : Option (Coordinate → Coordinate) :=
  if direction = '1' then some (fun c => ⟨subSize c.x 1, subSize c.y 1⟩)
  else if direction = '2' then some (fun c => ⟨subSize c.x 0, subSize c.y 1⟩)
  else if direction = '3' then some (fun c => ⟨addSize c.x 1, addSize c.y 1⟩)
  else if direction = '4' then some (fun c => ⟨subSize c.x 1, addSize c.y 0⟩)
  else if direction = '5' then some (fun c => ⟨addSize c.x 1, addSize c.y 0⟩)
  else if direction = '6' then some (fun c => ⟨subSize c.x 1, subSize c.y 1⟩)
  else if direction = '7' then some (fun c => ⟨subSize c.x 0, subSize c.y 1⟩)
  else if direction = '8' then some (fun c => ⟨addSize c.x 1, subSize c.y 1⟩)
  else none

/-- The loop of `Node::coordinate` over a remaining piece of the path. -/
def coordinateFrom : List Char → Coordinate → Option Coordinate
  | [], c => some c
  | direction :: rest, c =>
    match Node.goes direction with
    | some f => coordinateFrom rest (f c)
    | none => none

/-- The method `Node::coordinate`: replay `_path` from `start`. -/
def Node.coordinate (n : Node) (start : Coordinate) : Option Coordinate :=
  coordinateFrom n.path start

/-- The values taken by the loop variable of `Node::children`:
`for (direction = '1'; direction <= '8'; ++direction)`. -/
def directions : List Char := ['1', '2', '3', '4', '5', '6', '7', '8']

/-- One pass through the body of the loop of `Node::children`. -/
def childrenStep (validate : Node → Bool) (n : Node) (children : List Node)
    (direction : Char) : List Node :=
  let child : Node := ⟨n.path ++ [direction]⟩
  if validate child then children ++ [child] else children

/-- The method `Node::children`. -/
def Node.children (n : Node) (validate : Node → Bool) : List Node :=
  directions.foldl (childrenStep validate n) []

/-! ## The collaborators of a_star_sel.hpp that are not part of the sources -/

/-- Modelled from the spec: the type `State` (declared in the absent `func.hpp`),
"a 2D grid coordinate" whose "equality is componentwise". -/
abbrev State := Coordinate

/-- Modelled from the spec: `Node::state()` of the three-argument node built by
`Node{ "", start, goal }`, which is absent from `node.hpp`: "fold the move table over
`path` starting from `start`", that is the replay done by `Node::coordinate`. The
lookup failure of `Node::coordinate` is mapped to `start`. -/
def Node.state (start : State) (n : Node) : State :=
  (n.coordinate start).getD start

/-- Modelled from the spec: the container of `PriorityQueue` (absent `priority_queue.hpp`),
"an ordered frontier over Nodes"; the nodes are kept in storage order and the
ordering is applied when the top is looked up. -/
abbrev PriorityQueue := List Node

/-- Modelled from the spec: `PriorityQueue::top` (absent `priority_queue.hpp`), "the Node
judged smallest by the comparator"; `less lhs rhs` says that "lhs should be expanded
before rhs". Ties go to the node stored first. -/
def PriorityQueue.top (less : Node → Node → Bool) : PriorityQueue → Option Node
  | [] => none
  | n :: rest =>
    match PriorityQueue.top less rest with
    | none => some n
    | some m => if less m n then some m else some n

/-- Modelled from the spec: `PriorityQueue::push` (absent `priority_queue.hpp`). -/
def PriorityQueue.push (q : PriorityQueue) (n : Node) : PriorityQueue := q ++ [n]

/-- Modelled from the spec: `PriorityQueue::pop` (absent `priority_queue.hpp`), "removing
and returning the Node judged smallest by the comparator". -/
def PriorityQueue.pop (less : Node → Node → Bool) (q : PriorityQueue) :
    Option (Node × PriorityQueue) :=
  match PriorityQueue.top less q with
  | none => none
  | some t => some (t, q.erase t)

/-- Modelled from the spec: `PriorityQueue::empty` (absent `priority_queue.hpp`). -/
def PriorityQueue.empty (q : PriorityQueue) : Bool := q.isEmpty

/-- Modelled from the spec: `PriorityQueue::size` (absent `priority_queue.hpp`). -/
def PriorityQueue.size (q : PriorityQueue) : Nat := q.length

/-- Modelled from the spec: `PriorityQueue::any` (absent `priority_queue.hpp`), "true iff
some contained node satisfies `predicate`". -/
def PriorityQueue.any (q : PriorityQueue) (predicate : Node → Bool) : Bool :=
  List.any q predicate

/-- Modelled from the spec: `PriorityQueue::update_with_if` (absent `priority_queue.hpp`),
"find the first node satisfying `predicate` and replace it with `newNode`". -/
def PriorityQueue.update_with_if (newNode : Node) (predicate : Node → Bool) :
    PriorityQueue → PriorityQueue
  | [] => []
  | n :: rest =>
    if predicate n then newNode :: rest
    else n :: PriorityQueue.update_with_if newNode predicate rest

/-- Modelled from the spec: `PriorityQueue::reset` (absent `priority_queue.hpp`),
"clear queue". -/
def PriorityQueue.reset (_q : PriorityQueue) : PriorityQueue := []

/-- Modelled from the spec: `Cost<Node>` (absent `func.hpp`), "a length-based cost over
`Node`". -/
def Cost (n : Node) : Nat := n.path.length

/-- Modelled from the spec: the comparator `Less<Node, Hfunc>` (absent `func.hpp`) with
"priority = cost-so-far + heuristic (`g + h`), lower value expands first". -/
def Less (h : Node → Nat) (lhs rhs : Node) : Bool :=
  decide (Cost lhs + h lhs < Cost rhs + h rhs)

/-! ## a_star_sel.hpp -/

/-- The data members of `AStarSEL`; `_run_time` is written by the absent `Timing` and is
left out. -/
structure AStarSEL where
  q : PriorityQueue
  max_q_size : Nat
  expansions : List State
  final_path : List Char
  is_found : Bool
deriving DecidableEq, Repr

/-- The method `AStarSEL::reset`. -/
def AStarSEL.reset (e : AStarSEL) : AStarSEL :=
  { q := PriorityQueue.reset e.q, max_q_size := 0, expansions := [],
    final_path := [], is_found := false }

/-- The method `AStarSEL::update_max_q_size`. -/
def AStarSEL.update_max_q_size (e : AStarSEL) : AStarSEL :=
  { e with max_q_size := max e.max_q_size (PriorityQueue.size e.q) }

/-- The functor `AStarSEL::SameStateAs`. -/
def SameStateAs (start : State) (state_to_compare : State) (n : Node) : Bool :=
  decide (n.state start = state_to_compare)

/-- The method `AStarSEL::is_expanded`: `any_of` over the expansions. -/
def AStarSEL.is_expanded (start : State) (e : AStarSEL) (n : Node) : Bool :=
  List.any e.expansions (fun s => decide (s = n.state start))

/-- The method `AStarSEL::expand`: `unordered_set::insert`, which leaves the set as it
is when the state is already an element. -/
def AStarSEL.expand (start : State) (e : AStarSEL) (n : Node) : AStarSEL :=
  { e with expansions := List.insert (n.state start) e.expansions }

/-- The body of the loop over the children in `AStarSEL::search`. -/
def AStarSEL.visit (start : State) (e : AStarSEL) (child : Node) : AStarSEL :=
  if !e.is_expanded start child then
    if !PriorityQueue.any e.q (SameStateAs start (child.state start)) then
      { e with q := PriorityQueue.push e.q child }
    else
      { e with q := PriorityQueue.update_with_if child
                      (SameStateAs start (child.state start)) e.q }
  else e

/-- The condition of the loop of `AStarSEL::search`:
`!_q.empty() && _q.top().state() != goal`. -/
def AStarSEL.continues (less : Node → Node → Bool) (start goal : State)
    (e : AStarSEL) : Bool :=
  !PriorityQueue.empty e.q &&
    (match PriorityQueue.top less e.q with
     | some t => decide (t.state start ≠ goal)
     | none => false)

/-- The body of the loop of `AStarSEL::search`, followed by the increment
`update_max_q_size()`. -/
def AStarSEL.iteration (less : Node → Node → Bool) (start : State)
    (validate : Node → Bool) (e : AStarSEL) : AStarSEL :=
  match PriorityQueue.pop less e.q with
  | none => e.update_max_q_size
  | some (curr, q1) =>
    let e1 : AStarSEL := { e with q := q1 }
    if !e1.is_expanded start curr then
      AStarSEL.update_max_q_size
        ((curr.children validate).foldl (AStarSEL.visit start) (e1.expand start curr))
    else e1.update_max_q_size

/-- The loop of `AStarSEL::search` run for at most `fuel` iterations; `none` when the
condition still holds after `fuel` iterations. -/
def AStarSEL.loop (less : Node → Node → Bool) (start goal : State)
    (validate : Node → Bool) : Nat → AStarSEL → Option AStarSEL
  | 0, e => if e.continues less start goal then none else some e
  | fuel + 1, e =>
    if e.continues less start goal then
      AStarSEL.loop less start goal validate fuel (e.iteration less start validate)
    else some e

/-- The statements of `AStarSEL::search` after the loop. -/
def AStarSEL.conclude (less : Node → Node → Bool) (e : AStarSEL) : AStarSEL :=
  if PriorityQueue.empty e.q then
    { e with final_path := [], is_found := false }
  else
    match PriorityQueue.top less e.q with
    | some t => { e with final_path := t.path, is_found := true }
    | none => e

/-- The first statement of the loop header of `AStarSEL::search`:
`_q.push({ "", start, goal })`. -/
def AStarSEL.seed (e : AStarSEL) : AStarSEL :=
  { e with q := PriorityQueue.push e.q ⟨[]⟩ }

/-- The method `AStarSEL::search`: seed the queue with the root node, loop, conclude. -/
def AStarSEL.search (less : Node → Node → Bool) (fuel : Nat) (start goal : State)
    (validate : Node → Bool) (e : AStarSEL) : Option AStarSEL :=
  (AStarSEL.loop less start goal validate fuel e.seed).map (AStarSEL.conclude less)

/-- The call operator `AStarSEL::operator()`: `reset()` and then `search`. -/
def AStarSEL.run (less : Node → Node → Bool) (fuel : Nat) (e : AStarSEL)
    (start goal : State) (validate : Node → Bool) : Option AStarSEL :=
  AStarSEL.search less fuel start goal validate e.reset

/-- The states the engine passes through: the state at the end of each of the first
`fuel` iterations of the loop of `AStarSEL::search`, in order. -/
def AStarSEL.trace (less : Node → Node → Bool) (start goal : State)
    (validate : Node → Bool) : Nat → AStarSEL → List AStarSEL
  | 0, _ => []
  | fuel + 1, e =>
    if e.continues less start goal then
      e.iteration less start validate ::
        AStarSEL.trace less start goal validate fuel (e.iteration less start validate)
    else []

/-- The state whose children the iteration from `e` generates: the state of the popped
node when the test `!is_expanded(curr)` passes, nothing otherwise. -/
def AStarSEL.expandedAt (less : Node → Node → Bool) (start : State) (e : AStarSEL) :
    Option State :=
  match PriorityQueue.pop less e.q with
  | none => none
  | some (curr, q1) =>
    if !AStarSEL.is_expanded start { e with q := q1 } curr then some (curr.state start)
    else none

/-- The states expanded during the first `fuel` iterations of the loop, in order, one
entry for each time the children of a node are generated. -/
def AStarSEL.expanded (less : Node → Node → Bool) (start goal : State)
    (validate : Node → Bool) : Nat → AStarSEL → List State
  | 0, _ => []
  | fuel + 1, e =>
    if e.continues less start goal then
      (e.expandedAt less start).toList ++
        AStarSEL.expanded less start goal validate fuel (e.iteration less start validate)
    else []

/-! ## Notions used to state the claims -/

/-- The nodes met while replaying `rest` after `done`: every one of them is accepted by
`validate`. -/
def validatedFrom (validate : Node → Bool) : List Char → List Char → Bool
  | _, [] => true
  | done, d :: rest =>
    validate ⟨done ++ [d]⟩ && validatedFrom validate (done ++ [d]) rest

/-- A sequence of validated moves: a path over the symbols `'1'..'8'` whose every
non-empty initial piece is a node accepted by `validate`. -/
def validatedMoves (validate : Node → Bool) (p : List Char) : Bool :=
  p.all (fun d => decide (d ∈ directions)) && validatedFrom validate [] p

/-- The state `s` is reached from `start` by a sequence of validated moves (the empty
one reaches `start`). -/
def Reachable (validate : Node → Bool) (start s : State) : Prop :=
  ∃ p : List Char, validatedMoves validate p = true ∧ Node.coordinate ⟨p⟩ start = some s

/-- Modelled from the spec: the heuristic "Chebyshev distance" to the goal (a `Hfunc` of
the absent `func.hpp`), the larger of the two distances between the components of the
state of the node and of `goal`. -/
def ChebyshevDistance (start goal : State) (n : Node) : Nat :=
  max (max (n.state start).x goal.x - min (n.state start).x goal.x)
    (max (n.state start).y goal.y - min (n.state start).y goal.y)

/-- A board for a run on which an entry of the frontier is replaced by a longer path:
the states with `10 ≤ x ≤ 12` and `9 ≤ y ≤ 11`, without `(11,9)`. -/
def detourBoard (s : State) : Bool :=
  decide (10 ≤ s.x ∧ s.x ≤ 12 ∧ 9 ≤ s.y ∧ s.y ≤ 11 ∧ s ≠ ⟨11, 9⟩)

/-- Every node of the frontier has a path over the symbols `'1'..'8'`. -/
def SymbolsOk (e : AStarSEL) : Prop := ∀ n ∈ e.q, ∀ d ∈ n.path, d ∈ directions

/-- Every node of the frontier is a sequence of validated moves. -/
def FrontierValidated (validate : Node → Bool) (e : AStarSEL) : Prop :=
  ∀ n ∈ e.q, validatedMoves validate n.path = true

/-- The state `s` is in the closed set or is the state of a node of the frontier. -/
def Covered (start : State) (e : AStarSEL) (s : State) : Prop :=
  s ∈ e.expansions ∨ ∃ n ∈ e.q, n.state start = s

/-- The invariant of the exploration, for a predicate on nodes that is `vp` on their
states: the frontier holds sequences of validated moves; every closed state is
reachable and is not `goal`; every accepted move from a closed state leads to a
covered state; and `start` is covered. -/
def Exploring (start goal : State) (validate : Node → Bool) (vp : State → Bool)
    (e : AStarSEL) : Prop :=
  FrontierValidated validate e ∧
  (∀ s ∈ e.expansions, Reachable validate start s ∧ s ≠ goal) ∧
  (∀ s ∈ e.expansions, ∀ (d : Char) (f : Coordinate → Coordinate),
    Node.goes d = some f → vp (f s) = true → Covered start e (f s)) ∧
  Covered start e start

/-- The states of the nodes of a frontier, in storage order. -/
def statesOf (start : State) (q : PriorityQueue) : List State :=
  q.map (Node.state start)

/-- The frontier invariant: no two nodes of the frontier have the same state, and no
state of a node of the frontier is in the closed set. -/
def FrontierOpen (start : State) (e : AStarSEL) : Prop :=
  (statesOf start e.q).Nodup ∧ ∀ s ∈ statesOf start e.q, s ∉ e.expansions

/-- The closed set has no repeated state and holds reachable states only. -/
def ClosedReachable (validate : Node → Bool) (start : State) (e : AStarSEL) : Prop :=
  e.expansions.Nodup ∧ ∀ s ∈ e.expansions, Reachable validate start s

/-- The list `l` is closed under the moves that lead to a state accepted by `vp`. -/
def closedUnderMoves (vp : State → Bool) (l : List State) : Bool :=
  l.all (fun s => directions.all (fun d =>
    match Node.goes d with
    | some f => !vp (f s) || decide (f s ∈ l)
    | none => true))

/-- An engine state in the middle of the expansion of `(1,1)`, for `start = (0,0)`: the
frontier holds `"4"` and `"5"`, the closed set `(0,0)` and `(1,1)`. -/
def replaceExample : AStarSEL :=
  { q := [⟨['4']⟩, ⟨['5']⟩], max_q_size := 2, expansions := [⟨0, 0⟩, ⟨1, 1⟩],
    final_path := [], is_found := false }

/-- No path of the frontier contains the symbol `'1'` or the symbol `'2'`. -/
def FrontierClean (e : AStarSEL) : Prop :=
  ∀ n ∈ e.q, '1' ∉ n.path ∧ '2' ∉ n.path

/-! ## Lemmas on the move table and the replay -/

theorem goes_isSome_iff (d : Char) : (Node.goes d).isSome = true ↔ d ∈ directions := by
  unfold Node.goes directions
  split_ifs <;> simp_all

theorem goes_eq_none_iff (d : Char) : Node.goes d = none ↔ d ∉ directions := by
  rw [← goes_isSome_iff]
  cases Node.goes d <;> simp

theorem goes_of_mem {d : Char} (hd : d ∈ directions) : ∃ f, Node.goes d = some f := by
  have h := (goes_isSome_iff d).2 hd
  exact Option.isSome_iff_exists.1 h

theorem coordinateFrom_append (p r : List Char) (c : Coordinate) :
    coordinateFrom (p ++ r) c = (coordinateFrom p c).bind (coordinateFrom r) := by
  induction p generalizing c with
  | nil => simp [coordinateFrom]
  | cons d p ih =>
    simp only [List.cons_append, coordinateFrom]
    cases Node.goes d with
    | none => simp
    | some f => simpa using ih (f c)

theorem coordinateFrom_of_mem (p : List Char) (hp : ∀ d ∈ p, d ∈ directions)
    (c : Coordinate) : ∃ r, coordinateFrom p c = some r := by
  induction p generalizing c with
  | nil => exact ⟨c, rfl⟩
  | cons d p ih =>
    obtain ⟨f, hf⟩ := goes_of_mem (hp d (List.mem_cons_self d p))
    simp only [coordinateFrom, hf]
    exact ih (fun a ha => hp a (List.mem_cons_of_mem d ha)) (f c)

theorem mem_of_coordinateFrom (p : List Char) (c r : Coordinate)
    (h : coordinateFrom p c = some r) : ∀ d ∈ p, d ∈ directions := by
  induction p generalizing c with
  | nil => simp
  | cons d p ih =>
    intro a ha
    simp only [coordinateFrom] at h
    cases hg : Node.goes d with
    | none => simp [hg] at h
    | some f =>
      simp only [hg] at h
      rcases List.mem_cons.1 ha with rfl | ha
      · exact (goes_isSome_iff a).1 (by simp [hg])
      · exact ih (f c) h a ha

theorem children_foldl (validate : Node → Bool) (n : Node) (ds : List Char)
    (acc : List Node) :
    ds.foldl (childrenStep validate n) acc =
      acc ++ (ds.map (fun d => (⟨n.path ++ [d]⟩ : Node))).filter validate := by
  induction ds generalizing acc with
  | nil => simp
  | cons d ds ih =>
    simp only [List.foldl_cons, List.map_cons, ih, childrenStep]
    by_cases hv : validate ⟨n.path ++ [d]⟩ = true
    · simp [hv, List.filter_cons]
    · simp [hv, List.filter_cons]

theorem children_eq (n : Node) (validate : Node → Bool) :
    n.children validate =
      (directions.map (fun d => (⟨n.path ++ [d]⟩ : Node))).filter validate := by
  simp [Node.children, children_foldl]

/-! ## Lemmas on the frontier -/

theorem top_eq_none_iff (less : Node → Node → Bool) (q : PriorityQueue) :
    PriorityQueue.top less q = none ↔ q = [] := by
  cases q with
  | nil => simp [PriorityQueue.top]
  | cons n rest =>
    simp only [PriorityQueue.top]
    cases PriorityQueue.top less rest with
    | none => simp
    | some m => by_cases h : less m n = true <;> simp [h]

theorem top_mem (less : Node → Node → Bool) (q : PriorityQueue) (t : Node)
    (h : PriorityQueue.top less q = some t) : t ∈ q := by
  induction q generalizing t with
  | nil => simp [PriorityQueue.top] at h
  | cons n rest ih =>
    simp only [PriorityQueue.top] at h
    cases hr : PriorityQueue.top less rest with
    | none =>
      simp only [hr, Option.some.injEq] at h
      simp [← h]
    | some m =>
      simp only [hr] at h
      by_cases hl : less m n = true
      · simp only [hl, if_true, Option.some.injEq] at h
        exact List.mem_cons_of_mem _ (ih m hr |> fun hm => h ▸ hm)
      · simp only [hl, Bool.false_eq_true, if_false, Option.some.injEq] at h
        simp [← h]

theorem mem_update_with_if (c : Node) (pr : Node → Bool) (q : PriorityQueue) (n : Node)
    (h : n ∈ PriorityQueue.update_with_if c pr q) : n ∈ q ∨ n = c := by
  induction q with
  | nil => simp [PriorityQueue.update_with_if] at h
  | cons m rest ih =>
    simp only [PriorityQueue.update_with_if] at h
    split_ifs at h with hp
    · rcases List.mem_cons.1 h with h | h
      · exact Or.inr h
      · exact Or.inl (List.mem_cons_of_mem _ h)
    · rcases List.mem_cons.1 h with h | h
      · exact Or.inl (by simp [h])
      · rcases ih h with h | h
        · exact Or.inl (List.mem_cons_of_mem _ h)
        · exact Or.inr h

theorem mem_visit_q (start : State) (e : AStarSEL) (c n : Node)
    (h : n ∈ (e.visit start c).q) : n ∈ e.q ∨ n = c := by
  unfold AStarSEL.visit at h
  split_ifs at h
  · simpa [PriorityQueue.push] using h
  · exact mem_update_with_if _ _ _ _ h
  · exact Or.inl h

theorem mem_foldl_visit_q (start : State) (cs : List Node) (e : AStarSEL) (n : Node)
    (h : n ∈ (cs.foldl (AStarSEL.visit start) e).q) : n ∈ e.q ∨ n ∈ cs := by
  induction cs generalizing e with
  | nil => exact Or.inl h
  | cons c cs ih =>
    rcases ih (e.visit start c) h with h | h
    · rcases mem_visit_q start e c n h with h | h
      · exact Or.inl h
      · exact Or.inr (by simp [h])
    · exact Or.inr (List.mem_cons_of_mem _ h)

theorem mem_iteration_q (less : Node → Node → Bool) (start : State)
    (validate : Node → Bool) (e : AStarSEL) (n : Node)
    (h : n ∈ (e.iteration less start validate).q) :
    n ∈ e.q ∨ ∃ curr ∈ e.q, n ∈ curr.children validate := by
  unfold AStarSEL.iteration PriorityQueue.pop at h
  cases ht : PriorityQueue.top less e.q with
  | none =>
    simp only [ht] at h
    exact Or.inl h
  | some t =>
    simp only [ht] at h
    split_ifs at h
    · rcases mem_foldl_visit_q start _ _ n h with h | h
      · exact Or.inl (List.mem_of_mem_erase h)
      · exact Or.inr ⟨t, top_mem less e.q t ht, h⟩
    · exact Or.inl (List.mem_of_mem_erase h)

/-- The rule for reasoning on the loop: a property that holds before the loop and is kept
by every iteration taken while the condition holds, holds when the loop ends, and the
condition is then false. -/
theorem loop_invariant (less : Node → Node → Bool) (start goal : State)
    (validate : Node → Bool) (P : AStarSEL → Prop)
    (hstep : ∀ e, P e → e.continues less start goal = true →
      P (e.iteration less start validate))
    (fuel : Nat) (e e' : AStarSEL) (he : P e)
    (h : AStarSEL.loop less start goal validate fuel e = some e') :
    P e' ∧ e'.continues less start goal = false := by
  induction fuel generalizing e with
  | zero =>
    simp only [AStarSEL.loop] at h
    split_ifs at h with hc
    simp only [Option.some.injEq] at h
    subst h
    exact ⟨he, by simpa using hc⟩
  | succ fuel ih =>
    simp only [AStarSEL.loop] at h
    split_ifs at h with hc
    · exact ih _ (hstep e he hc) h
    · simp only [Option.some.injEq] at h
      subst h
      exact ⟨he, by simpa using hc⟩

theorem symbolsOk_iteration (less : Node → Node → Bool) (start : State)
    (validate : Node → Bool) (e : AStarSEL) (he : SymbolsOk e) :
    SymbolsOk (e.iteration less start validate) := by
  intro n hn d hd
  rcases mem_iteration_q less start validate e n hn with h | ⟨curr, hcurr, h⟩
  · exact he n h d hd
  · rw [children_eq, List.mem_filter, List.mem_map] at h
    obtain ⟨⟨a, ha, rfl⟩, _⟩ := h
    rcases List.mem_append.1 hd with hd | hd
    · exact he curr hcurr d hd
    · simp only [List.mem_singleton] at hd
      exact hd ▸ ha

theorem state_eq_of_symbols (start : State) (n : Node)
    (h : ∀ d ∈ n.path, d ∈ directions) :
    n.coordinate start = some (n.state start) := by
  obtain ⟨r, hr⟩ := coordinateFrom_of_mem n.path h start
  simp [Node.state, Node.coordinate, hr]

/-! ## Lemmas on one iteration and on the trace -/

theorem visit_max_q_size (start : State) (e : AStarSEL) (c : Node) :
    (e.visit start c).max_q_size = e.max_q_size := by
  unfold AStarSEL.visit
  split_ifs <;> rfl

theorem visit_expansions (start : State) (e : AStarSEL) (c : Node) :
    (e.visit start c).expansions = e.expansions := by
  unfold AStarSEL.visit
  split_ifs <;> rfl

theorem foldl_visit_max_q_size (start : State) (cs : List Node) (e : AStarSEL) :
    (cs.foldl (AStarSEL.visit start) e).max_q_size = e.max_q_size := by
  induction cs generalizing e with
  | nil => rfl
  | cons c cs ih => simp [ih, visit_max_q_size]

theorem foldl_visit_expansions (start : State) (cs : List Node) (e : AStarSEL) :
    (cs.foldl (AStarSEL.visit start) e).expansions = e.expansions := by
  induction cs generalizing e with
  | nil => rfl
  | cons c cs ih => simp [ih, visit_expansions]

theorem is_expanded_iff (start : State) (e : AStarSEL) (n : Node) :
    e.is_expanded start n = true ↔ n.state start ∈ e.expansions := by
  unfold AStarSEL.is_expanded
  rw [List.any_eq_true]
  constructor
  · rintro ⟨s, hs, heq⟩
    rw [decide_eq_true_eq] at heq
    exact heq ▸ hs
  · intro h
    exact ⟨_, h, by simp⟩

theorem iteration_max_q_size (less : Node → Node → Bool) (start : State)
    (validate : Node → Bool) (e : AStarSEL) :
    (e.iteration less start validate).max_q_size =
      max e.max_q_size (PriorityQueue.size (e.iteration less start validate).q) := by
  unfold AStarSEL.iteration
  cases PriorityQueue.pop less e.q with
  | none => simp [AStarSEL.update_max_q_size]
  | some r =>
    obtain ⟨curr, q1⟩ := r
    simp only
    split_ifs
    · simp [AStarSEL.update_max_q_size, foldl_visit_max_q_size, AStarSEL.expand]
    · simp [AStarSEL.update_max_q_size]

theorem iteration_expansions (less : Node → Node → Bool) (start : State)
    (validate : Node → Bool) (e : AStarSEL) :
    (e.iteration less start validate).expansions =
      (e.expandedAt less start).toList ++ e.expansions ∧
    ∀ s ∈ e.expandedAt less start, s ∉ e.expansions := by
  unfold AStarSEL.iteration AStarSEL.expandedAt
  cases PriorityQueue.pop less e.q with
  | none => simp [AStarSEL.update_max_q_size]
  | some r =>
    obtain ⟨curr, q1⟩ := r
    simp only
    split_ifs with hx
    · have hx' : curr.state start ∉ e.expansions := by
        intro hmem
        have := (is_expanded_iff start { e with q := q1 } curr).2 hmem
        simp [this] at hx
      simp [AStarSEL.update_max_q_size, foldl_visit_expansions, AStarSEL.expand,
        List.insert_of_not_mem hx', hx']
    · simp [AStarSEL.update_max_q_size]

theorem mem_visit_q_closed (start : State) (e : AStarSEL) (c n : Node)
    (h : n ∈ (e.visit start c).q) : n ∈ e.q ∨ n.state start ∉ e.expansions := by
  unfold AStarSEL.visit at h
  split_ifs at h with hx
  · rcases List.mem_append.1 h with h | h
    · exact Or.inl h
    · simp only [List.mem_singleton] at h
      subst h
      refine Or.inr (fun hmem => ?_)
      simp [(is_expanded_iff start e n).2 hmem] at hx
  · rcases mem_update_with_if _ _ _ _ h with h | h
    · exact Or.inl h
    · subst h
      refine Or.inr (fun hmem => ?_)
      simp [(is_expanded_iff start e n).2 hmem] at hx
  · exact Or.inl h

theorem mem_foldl_visit_q_closed (start : State) (cs : List Node) (e : AStarSEL)
    (n : Node) (h : n ∈ (cs.foldl (AStarSEL.visit start) e).q) :
    n ∈ e.q ∨ n.state start ∉ e.expansions := by
  induction cs generalizing e with
  | nil => exact Or.inl h
  | cons c cs ih =>
    rcases ih (e.visit start c) h with h | h
    · exact mem_visit_q_closed start e c n h
    · exact Or.inr (by rwa [visit_expansions] at h)

theorem mem_iteration_q_closed (less : Node → Node → Bool) (start : State)
    (validate : Node → Bool) (e : AStarSEL) (n : Node)
    (h : n ∈ (e.iteration less start validate).q) :
    n ∈ e.q ∨ n.state start ∉ (e.iteration less start validate).expansions := by
  unfold AStarSEL.iteration at h ⊢
  cases hp : PriorityQueue.pop less e.q with
  | none =>
    simp only [hp] at h
    exact Or.inl h
  | some r =>
    obtain ⟨curr, q1⟩ := r
    have hq1 : ∀ m ∈ q1, m ∈ e.q := by
      intro m hm
      unfold PriorityQueue.pop at hp
      cases ht : PriorityQueue.top less e.q with
      | none => simp [ht] at hp
      | some t =>
        simp only [ht, Option.some.injEq, Prod.mk.injEq] at hp
        rw [← hp.2] at hm
        exact List.mem_of_mem_erase hm
    simp only [hp] at h ⊢
    split_ifs at h ⊢
    · rcases mem_foldl_visit_q_closed start _ _ n h with h | h
      · exact Or.inl (hq1 n h)
      · exact Or.inr (by simpa [AStarSEL.update_max_q_size, foldl_visit_expansions] using h)
    · exact Or.inl (hq1 n h)

theorem trace_chain (less : Node → Node → Bool) (start goal : State)
    (validate : Node → Bool) (R : AStarSEL → AStarSEL → Prop)
    (hR : ∀ e, e.continues less start goal = true → R e (e.iteration less start validate))
    (fuel : Nat) (e : AStarSEL) :
    List.Chain R e (AStarSEL.trace less start goal validate fuel e) := by
  induction fuel generalizing e with
  | zero => simp [AStarSEL.trace]
  | succ fuel ih =>
    simp only [AStarSEL.trace]
    split_ifs with hc
    · exact List.Chain.cons (hR e hc) (ih _)
    · exact List.Chain.nil

theorem loop_eq_trace_last (less : Node → Node → Bool) (start goal : State)
    (validate : Node → Bool) (fuel : Nat) (e e' : AStarSEL)
    (h : AStarSEL.loop less start goal validate fuel e = some e') :
    (AStarSEL.trace less start goal validate fuel e).getLast?.getD e = e' := by
  induction fuel generalizing e with
  | zero =>
    simp only [AStarSEL.loop] at h
    split_ifs at h
    simp only [Option.some.injEq] at h
    simp [AStarSEL.trace, h]
  | succ fuel ih =>
    simp only [AStarSEL.loop] at h
    simp only [AStarSEL.trace]
    split_ifs at h ⊢ with hc
    · have := ih _ h
      rw [List.getLast?_cons]
      simpa using this
    · simp only [Option.some.injEq] at h
      simp [h]

theorem loop_max_q_size (less : Node → Node → Bool) (start goal : State)
    (validate : Node → Bool) (fuel : Nat) (e e' : AStarSEL)
    (h : AStarSEL.loop less start goal validate fuel e = some e') :
    e'.max_q_size =
      ((AStarSEL.trace less start goal validate fuel e).map
        (fun s => PriorityQueue.size s.q)).foldl max e.max_q_size := by
  induction fuel generalizing e with
  | zero =>
    simp only [AStarSEL.loop] at h
    split_ifs at h
    simp only [Option.some.injEq] at h
    simp [AStarSEL.trace, h]
  | succ fuel ih =>
    simp only [AStarSEL.loop] at h
    simp only [AStarSEL.trace]
    split_ifs at h ⊢ with hc
    · rw [ih _ h, List.map_cons, List.foldl_cons, ← iteration_max_q_size]
    · simp only [Option.some.injEq] at h
      simp [h]

theorem conclude_max_q_size (less : Node → Node → Bool) (e : AStarSEL) :
    (e.conclude less).max_q_size = e.max_q_size := by
  unfold AStarSEL.conclude
  split_ifs
  · rfl
  · cases PriorityQueue.top less e.q <;> rfl

theorem expanded_fresh (less : Node → Node → Bool) (start goal : State)
    (validate : Node → Bool) (fuel : Nat) (e : AStarSEL) :
    (AStarSEL.expanded less start goal validate fuel e).Nodup ∧
    ∀ s ∈ AStarSEL.expanded less start goal validate fuel e, s ∉ e.expansions := by
  induction fuel generalizing e with
  | zero => simp [AStarSEL.expanded]
  | succ fuel ih =>
    simp only [AStarSEL.expanded]
    split_ifs with hc
    · obtain ⟨hnd, hfresh⟩ := ih (e.iteration less start validate)
      obtain ⟨hexp, hnew⟩ := iteration_expansions less start validate e
      rw [hexp] at hfresh
      constructor
      · rw [List.nodup_append]
        refine ⟨?_, hnd, ?_⟩
        · cases e.expandedAt less start <;> simp
        · intro s hs hs'
          exact hfresh s hs' (List.mem_append_left _ hs)
      · intro s hs
        rcases List.mem_append.1 hs with hs | hs
        · exact hnew s (by simpa using hs)
        · exact fun hmem => hfresh s hs (List.mem_append_right _ hmem)
    · simp

/-! ## Lemmas on runs -/

theorem loop_add_fuel (less : Node → Node → Bool) (start goal : State)
    (validate : Node → Bool) (fuel k : Nat) (e e' : AStarSEL)
    (h : AStarSEL.loop less start goal validate fuel e = some e') :
    AStarSEL.loop less start goal validate (fuel + k) e = some e' := by
  induction fuel generalizing e with
  | zero =>
    simp only [AStarSEL.loop] at h
    split_ifs at h with hc
    cases k with
    | zero => simp [AStarSEL.loop, hc, h]
    | succ k =>
      simp only [Nat.zero_add, AStarSEL.loop, hc]
      simpa using h
  | succ fuel ih =>
    rw [Nat.add_right_comm]
    simp only [AStarSEL.loop] at h ⊢
    split_ifs at h ⊢ with hc
    · exact ih _ h
    · exact h

theorem run_add_fuel (less : Node → Node → Bool) (fuel k : Nat) (e0 e1 e : AStarSEL)
    (start goal : State) (validate : Node → Bool)
    (h : AStarSEL.run less fuel e0 start goal validate = some e) :
    AStarSEL.run less (fuel + k) e1 start goal validate = some e := by
  unfold AStarSEL.run AStarSEL.search at h ⊢
  rw [Option.map_eq_some'] at h ⊢
  obtain ⟨e2, hloop, hconc⟩ := h
  exact ⟨e2, loop_add_fuel less start goal validate fuel k _ e2 hloop, hconc⟩

/-! ## Lemmas on sequences of validated moves -/

theorem validatedFrom_append_singleton (validate : Node → Bool) (done p : List Char)
    (d : Char) :
    validatedFrom validate done (p ++ [d]) =
      (validatedFrom validate done p && validate ⟨done ++ p ++ [d]⟩) := by
  induction p generalizing done with
  | nil => simp [validatedFrom]
  | cons a p ih =>
    have h := ih (done ++ [a])
    simp only [List.append_assoc, List.singleton_append] at h
    show (validate ⟨done ++ [a]⟩ && validatedFrom validate (done ++ [a]) (p ++ [d])) =
      ((validate ⟨done ++ [a]⟩ && validatedFrom validate (done ++ [a]) p) &&
        validate ⟨done ++ a :: p ++ [d]⟩)
    rw [h, Bool.and_assoc]
    simp

theorem validatedMoves_append_singleton (validate : Node → Bool) (p : List Char)
    (d : Char) :
    validatedMoves validate (p ++ [d]) = true ↔
      validatedMoves validate p = true ∧ d ∈ directions ∧
        validate ⟨p ++ [d]⟩ = true := by
  simp only [validatedMoves, validatedFrom_append_singleton, List.all_append,
    List.nil_append, Bool.and_eq_true, List.all_cons, List.all_nil, Bool.and_true,
    decide_eq_true_eq]
  tauto

theorem validatedMoves_symbols (validate : Node → Bool) (p : List Char)
    (h : validatedMoves validate p = true) : ∀ d ∈ p, d ∈ directions := by
  simp only [validatedMoves, Bool.and_eq_true, List.all_eq_true, decide_eq_true_eq] at h
  exact h.1

theorem frontierValidated_seed (validate : Node → Bool) (e0 : AStarSEL) :
    FrontierValidated validate e0.reset.seed := by
  intro n hn
  simp only [AStarSEL.seed, AStarSEL.reset, PriorityQueue.reset, PriorityQueue.push,
    List.nil_append, List.mem_singleton] at hn
  subst hn
  rfl

theorem frontierValidated_iteration (less : Node → Node → Bool) (start : State)
    (validate : Node → Bool) (e : AStarSEL) (he : FrontierValidated validate e) :
    FrontierValidated validate (e.iteration less start validate) := by
  intro n hn
  rcases mem_iteration_q less start validate e n hn with h | ⟨curr, hcurr, h⟩
  · exact he n h
  · rw [children_eq, List.mem_filter, List.mem_map] at h
    obtain ⟨⟨a, ha, rfl⟩, hv⟩ := h
    exact (validatedMoves_append_singleton validate curr.path a).2 ⟨he curr hcurr, ha, hv⟩

/-- What the end of a run says about the state `e1` in which the loop ended: either
the frontier is empty and the run failed, or the top of the frontier has the state
`goal` and its path is the result. -/
theorem run_cases (less : Node → Node → Bool) (fuel : Nat) (e0 e : AStarSEL)
    (start goal : State) (validate : Node → Bool)
    (hrun : AStarSEL.run less fuel e0 start goal validate = some e) :
    ∃ e1, AStarSEL.loop less start goal validate fuel e0.reset.seed = some e1 ∧
      e.expansions = e1.expansions ∧ e.q = e1.q ∧
      ((e1.q = [] ∧ e.is_found = false ∧ e.final_path = []) ∨
       (∃ t, t ∈ e1.q ∧ t.state start = goal ∧ e.is_found = true ∧
          e.final_path = t.path)) := by
  unfold AStarSEL.run AStarSEL.search at hrun
  rw [Option.map_eq_some'] at hrun
  obtain ⟨e1, hloop, hconc⟩ := hrun
  refine ⟨e1, hloop, ?_⟩
  have hcond := (loop_invariant less start goal validate (fun _ => True)
    (fun _ _ _ => trivial) fuel _ e1 trivial hloop).2
  subst hconc
  unfold AStarSEL.conclude
  cases ht : PriorityQueue.top less e1.q with
  | none =>
    have hq := (top_eq_none_iff less e1.q).1 ht
    simp [hq, PriorityQueue.empty]
  | some t =>
    have hne : e1.q ≠ [] := fun hq => by
      rw [(top_eq_none_iff less e1.q).2 hq] at ht
      exact Option.noConfusion ht
    have hemp : PriorityQueue.empty e1.q = false := by
      simpa [PriorityQueue.empty] using hne
    simp only [AStarSEL.continues, hemp, ht, Bool.not_false, Bool.true_and,
      decide_eq_false_iff_not, not_not] at hcond
    simp only [hemp, ht]
    exact ⟨rfl, rfl, Or.inr ⟨t, top_mem less e1.q t ht, hcond, rfl, rfl⟩⟩

/-- When a run ends with `found = true`, `final_path` is a sequence of validated moves and
its replay from `start` gives `goal`, whatever the ordering of the frontier. -/
theorem found_path_validated (less : Node → Node → Bool) (fuel : Nat)
    (e0 e : AStarSEL) (start goal : State) (validate : Node → Bool)
    (hrun : AStarSEL.run less fuel e0 start goal validate = some e)
    (hfound : e.is_found = true) :
    validatedMoves validate e.final_path = true ∧
      Node.coordinate ⟨e.final_path⟩ start = some goal := by
  obtain ⟨e1, hloop, _, _, hcase⟩ := run_cases less fuel e0 e start goal validate hrun
  have hinv := (loop_invariant less start goal validate (FrontierValidated validate)
    (fun a ha _ => frontierValidated_iteration less start validate a ha) fuel _ e1
    (frontierValidated_seed validate e0) hloop).1
  rcases hcase with ⟨_, hf, _⟩ | ⟨t, ht, hgoal, _, hpath⟩
  · rw [hf] at hfound
    exact absurd hfound (by decide)
  · rw [hpath]
    refine ⟨hinv t ht, ?_⟩
    rw [← hgoal]
    exact state_eq_of_symbols start t (validatedMoves_symbols validate _ (hinv t ht))

/-- A run from `(10,10)` to `(12,10)` on `detourBoard` under the Chebyshev distance: it ends
with `final_path = "38"`, a sequence of validated moves whose replay is `(12,10)`. -/
theorem found_path_validated_witness :
    validatedMoves (fun n => detourBoard (n.state ⟨10, 10⟩)) ['3', '8'] = true ∧
      Node.coordinate ⟨['3', '8']⟩ ⟨10, 10⟩ = some ⟨12, 10⟩ :=
  found_path_validated (Less (ChebyshevDistance ⟨10, 10⟩ ⟨12, 10⟩)) 2
    ⟨[], 0, [], [], false⟩
    ⟨[⟨['7']⟩, ⟨['3', '7']⟩, ⟨['3', '4']⟩, ⟨['3', '5']⟩, ⟨['3', '8']⟩], 5,
      [⟨11, 11⟩, ⟨10, 10⟩], ['3', '8'], true⟩
    ⟨10, 10⟩ ⟨12, 10⟩ (fun n => detourBoard (n.state ⟨10, 10⟩)) (by decide) (by decide)

/-! ## Lemmas on the exploration of the reachable states -/

theorem state_append_singleton (start : State) (p : List Char) (d : Char)
    (f : Coordinate → Coordinate) (hp : ∀ a ∈ p, a ∈ directions)
    (hg : Node.goes d = some f) :
    Node.state start ⟨p ++ [d]⟩ = f (Node.state start ⟨p⟩) := by
  obtain ⟨r, hr⟩ := coordinateFrom_of_mem p hp start
  simp [Node.state, Node.coordinate, coordinateFrom_append, hr, coordinateFrom, hg]

theorem mem_update_with_if_of_any (c : Node) (pr : Node → Bool) (q : PriorityQueue)
    (h : PriorityQueue.any q pr = true) : c ∈ PriorityQueue.update_with_if c pr q := by
  induction q with
  | nil => simp [PriorityQueue.any] at h
  | cons m rest ih =>
    simp only [PriorityQueue.update_with_if]
    split_ifs with hp
    · exact List.mem_cons_self _ _
    · refine List.mem_cons_of_mem _ (ih ?_)
      simp only [PriorityQueue.any, List.any_cons, Bool.or_eq_true] at h
      rcases h with h | h
      · exact absurd h hp
      · exact h

theorem mem_update_with_if_or (c : Node) (pr : Node → Bool) (q : PriorityQueue)
    (n : Node) (h : n ∈ q) :
    n ∈ PriorityQueue.update_with_if c pr q ∨
      (pr n = true ∧ c ∈ PriorityQueue.update_with_if c pr q) := by
  induction q with
  | nil => simp at h
  | cons m rest ih =>
    simp only [PriorityQueue.update_with_if]
    split_ifs with hp
    · rcases List.mem_cons.1 h with h | h
      · subst h
        exact Or.inr ⟨hp, List.mem_cons_self _ _⟩
      · exact Or.inl (List.mem_cons_of_mem _ h)
    · rcases List.mem_cons.1 h with h | h
      · subst h
        exact Or.inl (List.mem_cons_self _ _)
      · rcases ih h with h | ⟨h1, h2⟩
        · exact Or.inl (List.mem_cons_of_mem _ h)
        · exact Or.inr ⟨h1, List.mem_cons_of_mem _ h2⟩

theorem covered_visit (start : State) (e : AStarSEL) (c : Node) (s : State)
    (h : Covered start e s) : Covered start (e.visit start c) s := by
  rcases h with h | ⟨n, hn, hs⟩
  · exact Or.inl (by rwa [visit_expansions])
  · refine Or.inr ?_
    unfold AStarSEL.visit
    split_ifs
    · exact ⟨n, List.mem_append_left _ hn, hs⟩
    · rcases mem_update_with_if_or c (SameStateAs start (c.state start)) e.q n hn with
        h | ⟨h1, h2⟩
      · exact ⟨n, h, hs⟩
      · refine ⟨c, h2, ?_⟩
        simp only [SameStateAs, decide_eq_true_eq] at h1
        rw [← h1, hs]
    · exact ⟨n, hn, hs⟩

theorem covered_visit_self (start : State) (e : AStarSEL) (c : Node) :
    Covered start (e.visit start c) (c.state start) := by
  unfold AStarSEL.visit
  split_ifs with hx hany
  · exact Or.inr ⟨c, by simp [PriorityQueue.push], rfl⟩
  · refine Or.inr ⟨c, mem_update_with_if_of_any _ _ _ ?_, rfl⟩
    simpa using hany
  · refine Or.inl ((is_expanded_iff start e c).1 ?_)
    simpa using hx

theorem covered_foldl_visit (start : State) (cs : List Node) (e : AStarSEL) (s : State)
    (h : Covered start e s) : Covered start (cs.foldl (AStarSEL.visit start) e) s := by
  induction cs generalizing e with
  | nil => exact h
  | cons c cs ih => exact ih _ (covered_visit start e c s h)

theorem covered_foldl_visit_mem (start : State) (cs : List Node) (e : AStarSEL)
    (c : Node) (hc : c ∈ cs) :
    Covered start (cs.foldl (AStarSEL.visit start) e) (c.state start) := by
  induction cs generalizing e with
  | nil => simp at hc
  | cons a cs ih =>
    rcases List.mem_cons.1 hc with h | h
    · subst h
      exact covered_foldl_visit start cs _ _ (covered_visit_self start e c)
    · exact ih _ h

/-- The two ways an iteration goes when the loop condition holds: the popped node `t`
is the top, its state is not `goal`, and either its state is closed and the iteration
only removes it, or its state is inserted and its children are visited. -/
theorem iteration_cases (less : Node → Node → Bool) (start goal : State)
    (validate : Node → Bool) (e : AStarSEL)
    (hc : e.continues less start goal = true) :
    ∃ t, t ∈ e.q ∧ t.state start ≠ goal ∧
      ((t.state start ∈ e.expansions ∧
          (e.iteration less start validate).q = e.q.erase t ∧
          (e.iteration less start validate).expansions = e.expansions) ∨
       (t.state start ∉ e.expansions ∧
          (e.iteration less start validate).q =
            ((t.children validate).foldl (AStarSEL.visit start)
              { e with q := e.q.erase t,
                       expansions := t.state start :: e.expansions }).q ∧
          (e.iteration less start validate).expansions =
            t.state start :: e.expansions)) := by
  unfold AStarSEL.continues at hc
  cases ht : PriorityQueue.top less e.q with
  | none => simp [ht] at hc
  | some t =>
    simp only [ht, Bool.and_eq_true, decide_eq_true_eq] at hc
    refine ⟨t, top_mem less e.q t ht, hc.2, ?_⟩
    unfold AStarSEL.iteration PriorityQueue.pop
    simp only [ht]
    by_cases hx : t.state start ∈ e.expansions
    · left
      have : AStarSEL.is_expanded start { e with q := e.q.erase t } t = true :=
        (is_expanded_iff start _ t).2 hx
      simp [this, hx, AStarSEL.update_max_q_size]
    · right
      have : AStarSEL.is_expanded start { e with q := e.q.erase t } t = false := by
        rw [← Bool.not_eq_true, is_expanded_iff]
        exact hx
      simp [this, hx, AStarSEL.update_max_q_size, AStarSEL.expand,
        List.insert_of_not_mem hx, foldl_visit_expansions]

theorem covered_iteration (less : Node → Node → Bool) (start goal : State)
    (validate : Node → Bool) (e : AStarSEL)
    (hc : e.continues less start goal = true) (s : State) (h : Covered start e s) :
    Covered start (e.iteration less start validate) s := by
  obtain ⟨t, _, _, hcase⟩ := iteration_cases less start goal validate e hc
  rcases hcase with ⟨hclosed, hq, hexp⟩ | ⟨_, hq, hexp⟩
  · rcases h with h | ⟨n, hn, hs⟩
    · exact Or.inl (by rwa [hexp])
    · by_cases hnt : n = t
      · subst hnt
        exact Or.inl (by rw [hexp, ← hs]; exact hclosed)
      · exact Or.inr ⟨n, by rw [hq]; exact (List.mem_erase_of_ne hnt).2 hn, hs⟩
  · have key : Covered start
        ((t.children validate).foldl (AStarSEL.visit start)
          { e with q := e.q.erase t, expansions := t.state start :: e.expansions }) s := by
      apply covered_foldl_visit
      rcases h with h | ⟨n, hn, hs⟩
      · exact Or.inl (List.mem_cons_of_mem _ h)
      · by_cases hnt : n = t
        · subst hnt
          exact Or.inl (by simp [hs])
        · exact Or.inr ⟨n, (List.mem_erase_of_ne hnt).2 hn, hs⟩
    rcases key with h | ⟨n, hn, hs⟩
    · rw [foldl_visit_expansions] at h
      exact Or.inl (by rw [hexp]; exact h)
    · exact Or.inr ⟨n, by rwa [hq], hs⟩

theorem covered_congr (start : State) (e e' : AStarSEL) (s : State)
    (hq : e'.q = e.q) (hx : e'.expansions = e.expansions) (h : Covered start e s) :
    Covered start e' s := by
  unfold Covered at h ⊢
  rw [hq, hx]
  exact h

theorem reachable_of_mem_frontier (start : State) (validate : Node → Bool)
    (e : AStarSEL) (he : FrontierValidated validate e) (t : Node) (ht : t ∈ e.q) :
    Reachable validate start (t.state start) :=
  ⟨t.path, he t ht,
    state_eq_of_symbols start t (validatedMoves_symbols validate _ (he t ht))⟩

theorem exploring_seed (start goal : State) (validate : Node → Bool)
    (vp : State → Bool) (e0 : AStarSEL) :
    Exploring start goal validate vp e0.reset.seed := by
  refine ⟨frontierValidated_seed validate e0, ?_, ?_, ?_⟩
  · intro s hs
    simp [AStarSEL.seed, AStarSEL.reset] at hs
  · intro s hs
    simp [AStarSEL.seed, AStarSEL.reset] at hs
  · refine Or.inr ⟨⟨[]⟩, ?_, rfl⟩
    simp [AStarSEL.seed, AStarSEL.reset, PriorityQueue.reset, PriorityQueue.push]

theorem exploring_iteration (less : Node → Node → Bool) (start goal : State)
    (validate : Node → Bool) (vp : State → Bool)
    (hv : ∀ n : Node, (∀ d ∈ n.path, d ∈ directions) → validate n = vp (n.state start))
    (e : AStarSEL) (he : Exploring start goal validate vp e)
    (hc : e.continues less start goal = true) :
    Exploring start goal validate vp (e.iteration less start validate) := by
  obtain ⟨hfv, hreach, hclos, hstart⟩ := he
  have hmono := covered_iteration less start goal validate e hc
  refine ⟨frontierValidated_iteration less start validate e hfv, ?_, ?_, hmono _ hstart⟩
  · intro s hs
    obtain ⟨t, ht, hgoal, hcase⟩ := iteration_cases less start goal validate e hc
    rcases hcase with ⟨_, _, hexp⟩ | ⟨_, _, hexp⟩
    · exact hreach s (by rwa [hexp] at hs)
    · rw [hexp] at hs
      rcases List.mem_cons.1 hs with h | h
      · subst h
        exact ⟨reachable_of_mem_frontier start validate e hfv t ht, hgoal⟩
      · exact hreach s h
  · intro s hs d f hg hacc
    obtain ⟨t, ht, _, hcase⟩ := iteration_cases less start goal validate e hc
    rcases hcase with ⟨_, _, hexp⟩ | ⟨_, hq, hexp⟩
    · exact hmono _ (hclos s (by rwa [hexp] at hs) d f hg hacc)
    · rw [hexp] at hs
      rcases List.mem_cons.1 hs with h | h
      · subst h
        have hsym := validatedMoves_symbols validate _ (hfv t ht)
        have hd : d ∈ directions := (goes_isSome_iff d).1 (by simp [hg])
        have hstate : Node.state start ⟨t.path ++ [d]⟩ = f (t.state start) :=
          state_append_singleton start t.path d f hsym hg
        have hval : validate ⟨t.path ++ [d]⟩ = true := by
          rw [hv, hstate]
          · exact hacc
          · intro a ha
            rcases List.mem_append.1 ha with ha | ha
            · exact hsym a ha
            · simp only [List.mem_singleton] at ha
              exact ha ▸ hd
        have hmem : (⟨t.path ++ [d]⟩ : Node) ∈ t.children validate := by
          rw [children_eq, List.mem_filter, List.mem_map]
          exact ⟨⟨d, hd, rfl⟩, hval⟩
        have hcov := covered_foldl_visit_mem start (t.children validate)
          { e with q := e.q.erase t, expansions := t.state start :: e.expansions } _ hmem
        rw [hstate] at hcov
        exact covered_congr start _ _ _ hq
          (by rw [hexp, foldl_visit_expansions]) hcov
      · exact hmono _ (hclos s h d f hg hacc)

theorem coordinate_append_singleton (start s : State) (p : List Char) (d : Char)
    (h : Node.coordinate ⟨p ++ [d]⟩ start = some s) :
    ∃ mid f, Node.coordinate ⟨p⟩ start = some mid ∧ Node.goes d = some f ∧ s = f mid := by
  simp only [Node.coordinate, coordinateFrom_append] at h ⊢
  cases hmid : coordinateFrom p start with
  | none => simp [hmid] at h
  | some mid =>
    simp only [hmid, Option.some_bind, coordinateFrom] at h
    cases hg : Node.goes d with
    | none => simp [hg] at h
    | some f =>
      simp only [hg, Option.some.injEq] at h
      exact ⟨mid, f, rfl, rfl, h.symm⟩

/-- When the frontier is empty, the closed set holds every reachable state. -/
theorem reachable_mem_expansions (start goal : State) (validate : Node → Bool)
    (vp : State → Bool)
    (hv : ∀ n : Node, (∀ d ∈ n.path, d ∈ directions) → validate n = vp (n.state start))
    (e : AStarSEL) (he : Exploring start goal validate vp e) (hq : e.q = [])
    (p : List Char) :
    ∀ s, validatedMoves validate p = true → Node.coordinate ⟨p⟩ start = some s →
      s ∈ e.expansions := by
  have hcov : ∀ s, Covered start e s → s ∈ e.expansions := by
    intro s hs
    rcases hs with h | ⟨n, hn, _⟩
    · exact h
    · rw [hq] at hn
      simp at hn
  induction p using List.reverseRecOn with
  | nil =>
    intro s _ hs
    simp only [Node.coordinate, coordinateFrom, Option.some.injEq] at hs
    exact hs ▸ hcov start he.2.2.2
  | append_singleton p d ih =>
    intro s hval hs
    obtain ⟨hvp, hd, hacc⟩ := (validatedMoves_append_singleton validate p d).1 hval
    obtain ⟨mid, f, hmid, hg, rfl⟩ := coordinate_append_singleton start s p d hs
    have hsym := validatedMoves_symbols validate p hvp
    have hstate : Node.state start ⟨p ++ [d]⟩ = f mid := by
      rw [state_append_singleton start p d f hsym hg]
      simp [Node.state, hmid]
    rw [hv, hstate] at hacc
    · exact hcov _ (he.2.2.1 mid (ih mid hvp hmid) d f hg hacc)
    · intro a ha
      rcases List.mem_append.1 ha with ha | ha
      · exact hsym a ha
      · simp only [List.mem_singleton] at ha
        exact ha ▸ hd

/-! ## Lemmas on the engine state before a run and on the arithmetic of the moves -/

theorem reset_eq (e : AStarSEL) :
    e.reset = { q := [], max_q_size := 0, expansions := [], final_path := [],
                is_found := false } := rfl

theorem trace_forall (less : Node → Node → Bool) (start goal : State)
    (validate : Node → Bool) (P : AStarSEL → Prop)
    (hstep : ∀ e, P e → e.continues less start goal = true →
      P (e.iteration less start validate))
    (fuel : Nat) (e : AStarSEL) (he : P e) :
    ∀ a ∈ e :: AStarSEL.trace less start goal validate fuel e, P a := by
  induction fuel generalizing e with
  | zero =>
    intro a ha
    simp only [AStarSEL.trace, List.mem_singleton] at ha
    exact ha ▸ he
  | succ fuel ih =>
    intro a ha
    simp only [AStarSEL.trace] at ha
    split_ifs at ha with hc
    · rcases List.mem_cons.1 ha with h | h
      · exact h ▸ he
      · exact ih _ (hstep e he hc) a h
    · simp only [List.mem_singleton] at ha
      exact ha ▸ he

theorem goes_adds (d : Char) (f : Coordinate → Coordinate) (h : Node.goes d = some f) :
    ∃ a b, (a = 0 ∨ a = 1 ∨ a = wordSize - 1) ∧ (b = 0 ∨ b = 1 ∨ b = wordSize - 1) ∧
      ∀ c, f c = ⟨(c.x + a) % wordSize, (c.y + b) % wordSize⟩ := by
  unfold Node.goes at h
  split_ifs at h <;> simp only [Option.some.injEq] at h <;> subst h
  · exact ⟨wordSize - 1, wordSize - 1, by simp, by simp, fun c => rfl⟩
  · exact ⟨0, wordSize - 1, by simp, by simp, fun c => by simp [subSize, wordSize]⟩
  · exact ⟨1, 1, by simp, by simp, fun c => rfl⟩
  · exact ⟨wordSize - 1, 0, by simp, by simp, fun c => rfl⟩
  · exact ⟨1, 0, by simp, by simp, fun c => rfl⟩
  · exact ⟨wordSize - 1, wordSize - 1, by simp, by simp, fun c => rfl⟩
  · exact ⟨0, wordSize - 1, by simp, by simp, fun c => by simp [subSize, wordSize]⟩
  · exact ⟨1, wordSize - 1, by simp, by simp, fun c => rfl⟩

theorem goes_comm (d1 d2 : Char) (f1 f2 : Coordinate → Coordinate)
    (h1 : Node.goes d1 = some f1) (h2 : Node.goes d2 = some f2) (c : Coordinate) :
    f1 (f2 c) = f2 (f1 c) := by
  obtain ⟨a1, b1, _, _, e1⟩ := goes_adds d1 f1 h1
  obtain ⟨a2, b2, _, _, e2⟩ := goes_adds d2 f2 h2
  simp only [e1, e2, Coordinate.mk.injEq]
  constructor
  · rw [Nat.mod_add_mod, Nat.mod_add_mod, Nat.add_right_comm]
  · rw [Nat.mod_add_mod, Nat.mod_add_mod, Nat.add_right_comm]

theorem coordinateFrom_perm (p r : List Char) (h : List.Perm p r) (c : Coordinate) :
    coordinateFrom p c = coordinateFrom r c := by
  induction h generalizing c with
  | nil => rfl
  | cons d _ ih =>
    simp only [coordinateFrom]
    cases Node.goes d with
    | none => rfl
    | some f => exact ih (f c)
  | swap d1 d2 l =>
    simp only [coordinateFrom]
    cases h1 : Node.goes d1 with
    | none => cases Node.goes d2 <;> rfl
    | some f1 =>
      cases h2 : Node.goes d2 with
      | none => rfl
      | some f2 =>
        simp only []
        rw [goes_comm d1 d2 f1 f2 h1 h2 c]
  | trans _ _ ih1 ih2 => exact (ih1 c).trans (ih2 c)

/-! ## Lemmas on the frontier invariant -/

theorem any_sameStateAs_iff (start : State) (q : PriorityQueue) (s : State) :
    PriorityQueue.any q (SameStateAs start s) = true ↔ s ∈ statesOf start q := by
  unfold PriorityQueue.any statesOf SameStateAs
  rw [List.any_eq_true, List.mem_map]
  constructor
  · rintro ⟨n, hn, h⟩
    exact ⟨n, hn, by simpa using h⟩
  · rintro ⟨n, hn, h⟩
    exact ⟨n, hn, by simpa using h⟩

theorem update_with_if_split (c : Node) (pr : Node → Bool) (q : PriorityQueue)
    (h : PriorityQueue.any q pr = true) :
    ∃ pre old post, q = pre ++ old :: post ∧ pr old = true ∧
      (∀ n ∈ pre, pr n = false) ∧
      PriorityQueue.update_with_if c pr q = pre ++ c :: post := by
  induction q with
  | nil => simp [PriorityQueue.any] at h
  | cons m rest ih =>
    by_cases hp : pr m = true
    · exact ⟨[], m, rest, rfl, hp, by simp, by simp [PriorityQueue.update_with_if, hp]⟩
    · have hrest : PriorityQueue.any rest pr = true := by
        simp only [PriorityQueue.any, List.any_cons, Bool.or_eq_true] at h
        rcases h with h | h
        · exact absurd h hp
        · exact h
      obtain ⟨pre, old, post, hq, hold, hpre, hupd⟩ := ih hrest
      refine ⟨m :: pre, old, post, by simp [hq], hold, ?_, ?_⟩
      · intro n hn
        rcases List.mem_cons.1 hn with hn | hn
        · subst hn
          simpa using hp
        · exact hpre n hn
      · simp [PriorityQueue.update_with_if, hp, hupd]

theorem statesOf_update_with_if (start : State) (c : Node) (q : PriorityQueue) :
    statesOf start
      (PriorityQueue.update_with_if c (SameStateAs start (c.state start)) q) =
      statesOf start q := by
  induction q with
  | nil => rfl
  | cons m rest ih =>
    simp only [PriorityQueue.update_with_if]
    split_ifs with hp
    · simp only [SameStateAs, decide_eq_true_eq] at hp
      simp [statesOf, hp]
    · simp only [statesOf, List.map_cons, List.cons.injEq, true_and]
      exact ih

theorem frontierOpen_congr (start : State) (e e' : AStarSEL)
    (hq : e'.q = e.q) (hx : e'.expansions = e.expansions) (h : FrontierOpen start e) :
    FrontierOpen start e' := by
  unfold FrontierOpen at h ⊢
  rw [hq, hx]
  exact h

theorem frontierOpen_visit (start : State) (e : AStarSEL) (c : Node)
    (he : FrontierOpen start e) : FrontierOpen start (e.visit start c) := by
  obtain ⟨hnd, hopen⟩ := he
  unfold AStarSEL.visit
  split_ifs with hx hany
  · have hclosed : c.state start ∉ e.expansions := by
      intro hmem
      simp [(is_expanded_iff start e c).2 hmem] at hx
    have hnew : c.state start ∉ statesOf start e.q := by
      intro hmem
      simp [(any_sameStateAs_iff start e.q _).2 hmem] at hany
    constructor
    · simp only [PriorityQueue.push, statesOf, List.map_append, List.map_cons,
        List.map_nil]
      refine List.Nodup.append hnd (List.nodup_singleton _) ?_
      intro s hs hs'
      rw [List.mem_singleton] at hs'
      exact hnew (hs' ▸ hs)
    · intro s hs
      simp only [PriorityQueue.push, statesOf, List.map_append, List.map_cons,
        List.map_nil, List.mem_append, List.mem_singleton] at hs
      rcases hs with hs | hs
      · exact hopen s hs
      · exact hs ▸ hclosed
  · constructor
    · show (statesOf start (PriorityQueue.update_with_if c _ e.q)).Nodup
      rw [statesOf_update_with_if]
      exact hnd
    · intro s hs
      have hs' : s ∈ statesOf start
          (PriorityQueue.update_with_if c (SameStateAs start (c.state start)) e.q) := hs
      rw [statesOf_update_with_if] at hs'
      exact hopen s hs'
  · exact ⟨hnd, hopen⟩

theorem frontierOpen_foldl_visit (start : State) (cs : List Node) (e : AStarSEL)
    (he : FrontierOpen start e) :
    FrontierOpen start (cs.foldl (AStarSEL.visit start) e) := by
  induction cs generalizing e with
  | nil => exact he
  | cons c cs ih => exact ih _ (frontierOpen_visit start e c he)

theorem frontierOpen_seed (start : State) (e0 : AStarSEL) :
    FrontierOpen start e0.reset.seed := by
  constructor
  · simp [AStarSEL.seed, reset_eq, PriorityQueue.push, statesOf]
  · intro s _
    simp [AStarSEL.seed, reset_eq]

/-- Under the frontier invariant an iteration taken while the loop condition holds pops
a node `t` whose state is not closed: the state is inserted and the children of `t` are
visited. -/
theorem iteration_open (less : Node → Node → Bool) (start goal : State)
    (validate : Node → Bool) (e : AStarSEL) (he : FrontierOpen start e)
    (hc : e.continues less start goal = true) :
    ∃ t, t ∈ e.q ∧ t.state start ≠ goal ∧ t.state start ∉ e.expansions ∧
      FrontierOpen start
        { e with q := e.q.erase t, expansions := t.state start :: e.expansions } ∧
      (e.iteration less start validate).q =
        ((t.children validate).foldl (AStarSEL.visit start)
          { e with q := e.q.erase t,
                   expansions := t.state start :: e.expansions }).q ∧
      (e.iteration less start validate).expansions = t.state start :: e.expansions := by
  obtain ⟨t, ht, hgoal, hcase⟩ := iteration_cases less start goal validate e hc
  have htopen : t.state start ∉ e.expansions :=
    he.2 _ (List.mem_map.2 ⟨t, ht, rfl⟩)
  rcases hcase with ⟨hclosed, _, _⟩ | ⟨_, hq, hexp⟩
  · exact absurd hclosed htopen
  · refine ⟨t, ht, hgoal, htopen, ⟨?_, ?_⟩, hq, hexp⟩
    · exact List.Nodup.sublist (List.Sublist.map _ (List.erase_sublist t e.q)) he.1
    · intro s hs
      obtain ⟨n, hn, rfl⟩ := List.mem_map.1 hs
      have hqnd : e.q.Nodup := List.Nodup.of_map _ he.1
      have hn' := (List.Nodup.mem_erase_iff hqnd).1 hn
      intro hmem
      rcases List.mem_cons.1 hmem with h | h
      · exact hn'.1 (List.inj_on_of_nodup_map he.1 hn'.2 ht h)
      · exact he.2 _ (List.mem_map.2 ⟨n, hn'.2, rfl⟩) h

theorem frontierOpen_iteration (less : Node → Node → Bool) (start goal : State)
    (validate : Node → Bool) (e : AStarSEL) (he : FrontierOpen start e)
    (hc : e.continues less start goal = true) :
    FrontierOpen start (e.iteration less start validate) := by
  obtain ⟨t, _, _, _, hopen, hq, hexp⟩ := iteration_open less start goal validate e he hc
  exact frontierOpen_congr start _ _ hq (by rw [hexp, foldl_visit_expansions])
    (frontierOpen_foldl_visit start (t.children validate) _ hopen)

theorem expandedAt_open (less : Node → Node → Bool) (start goal : State)
    (e : AStarSEL) (he : FrontierOpen start e)
    (hc : e.continues less start goal = true) :
    ∃ t, t ∈ e.q ∧ PriorityQueue.top less e.q = some t ∧
      e.expandedAt less start = some (t.state start) := by
  unfold AStarSEL.continues at hc
  cases ht : PriorityQueue.top less e.q with
  | none => simp [ht] at hc
  | some t =>
    have hmem := top_mem less e.q t ht
    have htopen : t.state start ∉ e.expansions :=
      he.2 _ (List.mem_map.2 ⟨t, hmem, rfl⟩)
    have hx : AStarSEL.is_expanded start { e with q := e.q.erase t } t = false := by
      rw [← Bool.not_eq_true, is_expanded_iff]
      exact htopen
    refine ⟨t, hmem, rfl, ?_⟩
    simp [AStarSEL.expandedAt, PriorityQueue.pop, ht, hx]

/-! ## Lemmas on the number of iterations -/

theorem trace_expansions_length (less : Node → Node → Bool) (start goal : State)
    (validate : Node → Bool) (fuel : Nat) (e : AStarSEL) (he : FrontierOpen start e) :
    (AStarSEL.trace less start goal validate fuel e).map (fun s => s.expansions.length) =
      List.range' (e.expansions.length + 1)
        (AStarSEL.trace less start goal validate fuel e).length := by
  induction fuel generalizing e with
  | zero => simp [AStarSEL.trace]
  | succ fuel ih =>
    simp only [AStarSEL.trace]
    split_ifs with hc
    · obtain ⟨t, _, _, _, _, _, hexp⟩ := iteration_open less start goal validate e he hc
      have hlen : (e.iteration less start validate).expansions.length =
          e.expansions.length + 1 := by
        rw [hexp, List.length_cons]
      rw [List.map_cons, List.length_cons, List.range'_succ,
        ih _ (frontierOpen_iteration less start goal validate e he hc), hlen]
    · simp

theorem loop_expansions_length (less : Node → Node → Bool) (start goal : State)
    (validate : Node → Bool) (fuel : Nat) (e e' : AStarSEL) (he : FrontierOpen start e)
    (h : AStarSEL.loop less start goal validate fuel e = some e') :
    e'.expansions.length =
      e.expansions.length + (AStarSEL.trace less start goal validate fuel e).length := by
  induction fuel generalizing e with
  | zero =>
    simp only [AStarSEL.loop] at h
    split_ifs at h
    simp only [Option.some.injEq] at h
    simp [AStarSEL.trace, h]
  | succ fuel ih =>
    simp only [AStarSEL.loop] at h
    simp only [AStarSEL.trace]
    split_ifs at h ⊢ with hc
    · obtain ⟨t, _, _, _, _, _, hexp⟩ := iteration_open less start goal validate e he hc
      rw [ih _ (frontierOpen_iteration less start goal validate e he hc) h, hexp,
        List.length_cons, List.length_cons]
      omega
    · simp only [Option.some.injEq] at h
      simp [h]

theorem closedReachable_iteration (less : Node → Node → Bool) (start goal : State)
    (validate : Node → Bool) (e : AStarSEL) (he : FrontierOpen start e)
    (hv : FrontierValidated validate e) (hr : ClosedReachable validate start e)
    (hc : e.continues less start goal = true) :
    ClosedReachable validate start (e.iteration less start validate) := by
  obtain ⟨t, ht, _, hopen, _, _, hexp⟩ := iteration_open less start goal validate e he hc
  unfold ClosedReachable
  rw [hexp]
  constructor
  · exact List.nodup_cons.2 ⟨hopen, hr.1⟩
  · intro s hs
    rcases List.mem_cons.1 hs with h | h
    · exact h ▸ reachable_of_mem_frontier start validate e hv t ht
    · exact hr.2 s h

/-- When all the reachable states are in the list `l`, the loop ends within as many
iterations as `l` has elements beyond the size of the closed set. -/
theorem loop_terminates (less : Node → Node → Bool) (start goal : State)
    (validate : Node → Bool) (l : List State)
    (hfin : ∀ s, Reachable validate start s → s ∈ l) (fuel : Nat) (e : AStarSEL)
    (he : FrontierOpen start e) (hv : FrontierValidated validate e)
    (hr : ClosedReachable validate start e)
    (hfuel : l.length ≤ e.expansions.length + fuel) :
    ∃ e', AStarSEL.loop less start goal validate fuel e = some e' := by
  induction fuel generalizing e with
  | zero =>
    simp only [AStarSEL.loop]
    split_ifs with hc
    · exfalso
      have hr' := closedReachable_iteration less start goal validate e he hv hr hc
      obtain ⟨t, _, _, _, _, _, hexp⟩ := iteration_open less start goal validate e he hc
      have hsub : (e.iteration less start validate).expansions ⊆ l :=
        fun s hs => hfin s (hr'.2 s hs)
      have hle := (List.Nodup.subperm hr'.1 hsub).length_le
      rw [hexp, List.length_cons] at hle
      omega
    · exact ⟨e, rfl⟩
  | succ fuel ih =>
    simp only [AStarSEL.loop]
    split_ifs with hc
    · obtain ⟨t, _, _, _, _, _, hexp⟩ := iteration_open less start goal validate e he hc
      refine ih _ (frontierOpen_iteration less start goal validate e he hc)
        (frontierValidated_iteration less start validate e hv)
        (closedReachable_iteration less start goal validate e he hv hr hc) ?_
      rw [hexp, List.length_cons]
      omega
    · exact ⟨e, rfl⟩

/-- A list that holds `start` and is closed under the accepted moves holds every
reachable state. -/
theorem reachable_mem_of_closed (start : State) (validate : Node → Bool)
    (vp : State → Bool)
    (hv : ∀ n : Node, (∀ d ∈ n.path, d ∈ directions) → validate n = vp (n.state start))
    (l : List State) (hstart : start ∈ l)
    (hclosed : ∀ s ∈ l, ∀ d ∈ directions, ∀ f, Node.goes d = some f →
      vp (f s) = true → f s ∈ l)
    (p : List Char) :
    ∀ s, validatedMoves validate p = true → Node.coordinate ⟨p⟩ start = some s →
      s ∈ l := by
  induction p using List.reverseRecOn with
  | nil =>
    intro s _ hs
    simp only [Node.coordinate, coordinateFrom, Option.some.injEq] at hs
    exact hs ▸ hstart
  | append_singleton p d ih =>
    intro s hval hs
    obtain ⟨hvp, hd, hacc⟩ := (validatedMoves_append_singleton validate p d).1 hval
    obtain ⟨mid, f, hmid, hg, rfl⟩ := coordinate_append_singleton start s p d hs
    have hsym := validatedMoves_symbols validate p hvp
    have hstate : Node.state start ⟨p ++ [d]⟩ = f mid := by
      rw [state_append_singleton start p d f hsym hg]
      simp [Node.state, hmid]
    rw [hv, hstate] at hacc
    · exact hclosed mid (ih mid hvp hmid) d hd f hg hacc
    · intro a ha
      rcases List.mem_append.1 ha with ha | ha
      · exact hsym a ha
      · simp only [List.mem_singleton] at ha
        exact ha ▸ hd

theorem closedUnderMoves_spec (vp : State → Bool) (l : List State)
    (h : closedUnderMoves vp l = true) :
    ∀ s ∈ l, ∀ d ∈ directions, ∀ f, Node.goes d = some f → vp (f s) = true → f s ∈ l := by
  intro s hs d hd f hg hacc
  unfold closedUnderMoves at h
  rw [List.all_eq_true] at h
  have h1 := h s hs
  rw [List.all_eq_true] at h1
  have h2 := h1 d hd
  simp only [hg, hacc, Bool.not_true, Bool.false_or, decide_eq_true_eq] at h2
  exact h2

theorem trace_chain_of_invariant (less : Node → Node → Bool) (start goal : State)
    (validate : Node → Bool) (P : AStarSEL → Prop) (R : AStarSEL → AStarSEL → Prop)
    (hstep : ∀ e, P e → e.continues less start goal = true →
      P (e.iteration less start validate))
    (hR : ∀ e, P e → e.continues less start goal = true →
      R e (e.iteration less start validate))
    (fuel : Nat) (e : AStarSEL) (he : P e) :
    List.Chain R e (AStarSEL.trace less start goal validate fuel e) := by
  induction fuel generalizing e with
  | zero => simp [AStarSEL.trace]
  | succ fuel ih =>
    simp only [AStarSEL.trace]
    split_ifs with hc
    · exact List.Chain.cons (hR e he hc) (ih _ (hstep e he hc))
    · exact List.Chain.nil

/-! ## Lemmas on the children that are overwritten -/

theorem goes_one_eq_six : Node.goes '1' = Node.goes '6' := by
  simp [Node.goes]

theorem goes_two_eq_seven : Node.goes '2' = Node.goes '7' := by
  simp [Node.goes]

theorem state_append_singleton_congr (start : State) (p : List Char) (d d' : Char)
    (hp : ∀ a ∈ p, a ∈ directions) (hd : d ∈ directions)
    (h : Node.goes d = Node.goes d') :
    Node.state start ⟨p ++ [d]⟩ = Node.state start ⟨p ++ [d']⟩ := by
  obtain ⟨f, hf⟩ := goes_of_mem hd
  rw [state_append_singleton start p d f hp hf,
    state_append_singleton start p d' f hp (h ▸ hf)]

theorem mem_visit_self (start : State) (e : AStarSEL) (c : Node)
    (hopen : e.is_expanded start c = false) : c ∈ (e.visit start c).q := by
  unfold AStarSEL.visit
  simp only [hopen, Bool.not_false, if_true]
  split_ifs with hany
  · simp [PriorityQueue.push]
  · exact mem_update_with_if_of_any _ _ _ (by simpa using hany)

theorem not_mem_foldl_visit (start : State) (cs : List Node) (e : AStarSEL) (n : Node)
    (hq : n ∉ e.q) (hcs : n ∉ cs) : n ∉ (cs.foldl (AStarSEL.visit start) e).q :=
  fun h => (mem_foldl_visit_q start cs e n h).elim hq hcs

/-- A child visited before a child of the same state is not in the frontier after both
are visited. -/
theorem overwritten (start : State) (e : AStarSEL) (cs1 cs2 : List Node) (c c' : Node)
    (he : FrontierOpen start e) (hstate : c.state start = c'.state start)
    (hne : c ≠ c') (hc2 : c ∉ cs2) :
    c ∉ ((cs1 ++ c' :: cs2).foldl (AStarSEL.visit start) e).q := by
  rw [List.foldl_append, List.foldl_cons]
  apply not_mem_foldl_visit start cs2 _ c _ hc2
  have hA := frontierOpen_foldl_visit start cs1 e he
  have hB := frontierOpen_visit start _ c' hA
  intro hmem
  have hopen : c.state start ∉ (cs1.foldl (AStarSEL.visit start) e).expansions := by
    have := hB.2 _ (List.mem_map.2 ⟨c, hmem, rfl⟩)
    rwa [visit_expansions] at this
  have hx : AStarSEL.is_expanded start (cs1.foldl (AStarSEL.visit start) e) c' = false := by
    rw [← Bool.not_eq_true, is_expanded_iff, ← hstate]
    exact hopen
  exact hne (List.inj_on_of_nodup_map hB.1 hmem (mem_visit_self start _ c' hx) hstate)

theorem children_split_six (n : Node) (validate : Node → Bool)
    (h : validate ⟨n.path ++ ['6']⟩ = true) :
    n.children validate =
      ((['1', '2', '3', '4', '5'].map (fun d => (⟨n.path ++ [d]⟩ : Node))).filter
          validate) ++
        ⟨n.path ++ ['6']⟩ ::
          ((['7', '8'].map (fun d => (⟨n.path ++ [d]⟩ : Node))).filter validate) := by
  have hd : directions = ['1', '2', '3', '4', '5'] ++ '6' :: ['7', '8'] := rfl
  rw [children_eq, hd, List.map_append, List.filter_append]
  congr 1
  exact List.filter_cons_of_pos h

theorem children_split_seven (n : Node) (validate : Node → Bool)
    (h : validate ⟨n.path ++ ['7']⟩ = true) :
    n.children validate =
      ((['1', '2', '3', '4', '5', '6'].map (fun d => (⟨n.path ++ [d]⟩ : Node))).filter
          validate) ++
        ⟨n.path ++ ['7']⟩ ::
          ((['8'].map (fun d => (⟨n.path ++ [d]⟩ : Node))).filter validate) := by
  have hd : directions = ['1', '2', '3', '4', '5', '6'] ++ '7' :: ['8'] := rfl
  rw [children_eq, hd, List.map_append, List.filter_append]
  congr 1
  exact List.filter_cons_of_pos h

theorem frontierClean_iteration (less : Node → Node → Bool) (start goal : State)
    (validate : Node → Bool) (vp : State → Bool)
    (hv : ∀ n : Node, (∀ d ∈ n.path, d ∈ directions) → validate n = vp (n.state start))
    (e : AStarSEL) (he : FrontierOpen start e) (hsym : SymbolsOk e)
    (hclean : FrontierClean e) (hc : e.continues less start goal = true) :
    FrontierClean (e.iteration less start validate) := by
  obtain ⟨t, ht, _, _, hopen, hq, _⟩ := iteration_open less start goal validate e he hc
  have htsym := hsym t ht
  have htclean := hclean t ht
  have hsnoc : ∀ d ∈ directions, ∀ a ∈ t.path ++ [d], a ∈ directions := by
    intro d hd a ha
    rcases List.mem_append.1 ha with ha | ha
    · exact htsym a ha
    · simp only [List.mem_singleton] at ha
      exact ha ▸ hd
  have hsame : ∀ d d', d ∈ directions → d' ∈ directions → Node.goes d = Node.goes d' →
      validate ⟨t.path ++ [d]⟩ = validate ⟨t.path ++ [d']⟩ := by
    intro d d' hd hd' hg
    rw [hv _ (hsnoc d hd), hv _ (hsnoc d' hd'),
      state_append_singleton_congr start t.path d d' htsym hd hg]
  have hold : ∀ n : Node, ('1' ∈ n.path ∨ '2' ∈ n.path) → n ∉ e.q.erase t := by
    intro n hn hmem
    have := hclean n (List.mem_of_mem_erase hmem)
    tauto
  intro n hn
  rw [hq] at hn
  rcases mem_foldl_visit_q start _ _ n hn with hmem | hmem
  · exact hclean n (List.mem_of_mem_erase hmem)
  · have hmem' := hmem
    rw [children_eq, List.mem_filter, List.mem_map] at hmem'
    obtain ⟨⟨d, hd, rfl⟩, hval⟩ := hmem'
    by_cases h1 : d = '1'
    · exfalso
      subst h1
      have h6 : validate ⟨t.path ++ ['6']⟩ = true := by
        rw [← hsame '1' '6' (by decide) (by decide) goes_one_eq_six]
        exact hval
      rw [children_split_six t validate h6] at hn
      refine overwritten start _ _ _ ⟨t.path ++ ['1']⟩ ⟨t.path ++ ['6']⟩ hopen
        (state_append_singleton_congr start t.path '1' '6' htsym (by decide)
          goes_one_eq_six) (by simp) (by simp [List.mem_filter]) hn
    · by_cases h2 : d = '2'
      · exfalso
        subst h2
        have h7 : validate ⟨t.path ++ ['7']⟩ = true := by
          rw [← hsame '2' '7' (by decide) (by decide) goes_two_eq_seven]
          exact hval
        rw [children_split_seven t validate h7] at hn
        refine overwritten start _ _ _ ⟨t.path ++ ['2']⟩ ⟨t.path ++ ['7']⟩ hopen
          (state_append_singleton_congr start t.path '2' '7' htsym (by decide)
            goes_two_eq_seven) (by simp) (by simp [List.mem_filter]) hn
      · simp only [List.mem_append, List.mem_singleton]
        exact ⟨fun h => h.elim htclean.1 (fun h' => h1 h'.symm),
          fun h => h.elim htclean.2 (fun h' => h2 h'.symm)⟩

/-! ## The claims -/

/-- C1: when a run ends with `found = true`, the replay of `final_path` from `start`
through `Node::coordinate` succeeds and gives `goal`. -/
theorem found_path_reaches_goal (less : Node → Node → Bool) (fuel : Nat)
    (e0 e : AStarSEL) (start goal : State) (validate : Node → Bool)
    (hrun : AStarSEL.run less fuel e0 start goal validate = some e)
    (hfound : e.is_found = true) :
    Node.coordinate ⟨e.final_path⟩ start = some goal := by
  unfold AStarSEL.run AStarSEL.search at hrun
  rw [Option.map_eq_some'] at hrun
  obtain ⟨e1, hloop, hconc⟩ := hrun
  have hinv := loop_invariant less start goal validate SymbolsOk
    (fun e he _ => symbolsOk_iteration less start validate e he) fuel _ e1
    (by
      intro n hn
      simp [AStarSEL.seed, AStarSEL.reset, PriorityQueue.reset, PriorityQueue.push] at hn
      simp [hn]) hloop
  obtain ⟨hsym, hcond⟩ := hinv
  subst hconc
  unfold AStarSEL.conclude at hfound ⊢
  cases ht : PriorityQueue.top less e1.q with
  | none =>
    have hq := (top_eq_none_iff less e1.q).1 ht
    simp [hq, PriorityQueue.empty] at hfound
  | some t =>
    have hne : e1.q ≠ [] := fun hq => by
      rw [(top_eq_none_iff less e1.q).2 hq] at ht
      exact Option.noConfusion ht
    have hemp : PriorityQueue.empty e1.q = false := by
      simpa [PriorityQueue.empty] using hne
    simp only [AStarSEL.continues, hemp, ht, Bool.not_false, Bool.true_and,
      decide_eq_false_iff_not, not_not] at hcond
    simp only [hemp, ht]
    have := state_eq_of_symbols start t (hsym t (top_mem less e1.q t ht))
    simpa [hcond, Node.coordinate] using this

/-- A run from `(0,0)` to `(1,0)` on which only the node `"5"` is accepted: it ends with
`final_path = "5"`, whose replay is `(1,0)`. -/
theorem found_path_reaches_goal_witness :
    Node.coordinate
      ⟨(⟨[⟨['5']⟩], 1, [⟨0, 0⟩], ['5'], true⟩ : AStarSEL).final_path⟩ ⟨0, 0⟩ =
      some ⟨1, 0⟩ :=
  found_path_reaches_goal (fun _ _ => false) 1 ⟨[], 0, [], [], false⟩ _ ⟨0, 0⟩ ⟨1, 0⟩
    (fun n => decide (n.path = ['5'])) (by decide) (by decide)

/-- C2: with `start = goal` the run ends without executing the loop body, whatever the
engine held before, the predicate, the ordering and the bound on the iterations:
`found = true`, `final_path` is empty, the closed set is empty and the frontier holds
the root only. -/
theorem run_start_eq_goal (less : Node → Node → Bool) (fuel : Nat) (e0 : AStarSEL)
    (s : State) (validate : Node → Bool) :
    AStarSEL.run less fuel e0 s s validate =
      some { q := [⟨[]⟩], max_q_size := 0, expansions := [], final_path := [],
             is_found := true } := by
  cases fuel <;>
    simp [AStarSEL.run, AStarSEL.search, AStarSEL.seed, AStarSEL.reset, PriorityQueue.reset,
      PriorityQueue.push, AStarSEL.loop, AStarSEL.continues, PriorityQueue.top,
      PriorityQueue.empty, Node.state, Node.coordinate, coordinateFrom,
      AStarSEL.conclude]

/-- C3: for a predicate whose verdict depends only on the state of the node, a run that
ends with `found = false` has an empty `final_path` and an empty frontier, its closed
set is exactly the set of the states reachable from `start` by sequences of validated
moves (`start` included), and `goal` is not reachable. -/
theorem exhausted_run (less : Node → Node → Bool) (fuel : Nat) (e0 e : AStarSEL)
    (start goal : State) (validate : Node → Bool) (vp : State → Bool)
    (hv : ∀ n : Node, (∀ d ∈ n.path, d ∈ directions) → validate n = vp (n.state start))
    (hrun : AStarSEL.run less fuel e0 start goal validate = some e)
    (hfound : e.is_found = false) :
    e.final_path = [] ∧ e.q = [] ∧
    (∀ s, s ∈ e.expansions ↔ Reachable validate start s) ∧
    ¬ Reachable validate start goal := by
  obtain ⟨e1, hloop, hexp, hq, hcase⟩ := run_cases less fuel e0 e start goal validate hrun
  have hinv := (loop_invariant less start goal validate
    (Exploring start goal validate vp)
    (fun a ha hc => exploring_iteration less start goal validate vp hv a ha hc) fuel _ e1
    (exploring_seed start goal validate vp e0) hloop).1
  rcases hcase with ⟨hempty, _, hpath⟩ | ⟨t, _, _, hf, _⟩
  · have hiff : ∀ s, s ∈ e.expansions ↔ Reachable validate start s := by
      intro s
      rw [hexp]
      constructor
      · intro hs
        exact (hinv.2.1 s hs).1
      · rintro ⟨p, hval, hs⟩
        exact reachable_mem_expansions start goal validate vp hv e1 hinv hempty p s hval hs
    refine ⟨hpath, by rw [hq, hempty], hiff, ?_⟩
    intro hreach
    have hmem := (hiff goal).2 hreach
    rw [hexp] at hmem
    exact (hinv.2.1 goal hmem).2 rfl
  · rw [hf] at hfound
    exact absurd hfound (by decide)

/-- The run from `(0,0)` to `(5,5)` on the board `x ≤ 1`, `y ≤ 1` ends with `found = false`,
an empty `final_path` and the closed set `{(0,1), (1,0), (1,1), (0,0)}`, which is the set
of the reachable states. -/
theorem exhausted_run_witness :
    AStarSEL.run (Less (ChebyshevDistance ⟨0, 0⟩ ⟨5, 5⟩)) 4 ⟨[], 0, [], [], false⟩
        ⟨0, 0⟩ ⟨5, 5⟩
        (fun n => decide ((n.state ⟨0, 0⟩).x ≤ 1 ∧ (n.state ⟨0, 0⟩).y ≤ 1)) =
      some ⟨[], 2, [⟨0, 1⟩, ⟨1, 0⟩, ⟨1, 1⟩, ⟨0, 0⟩], [], false⟩ ∧
    (([] : List Char) = [] ∧ ([] : PriorityQueue) = [] ∧
      (∀ s, s ∈ ([⟨0, 1⟩, ⟨1, 0⟩, ⟨1, 1⟩, ⟨0, 0⟩] : List State) ↔
        Reachable (fun n => decide ((n.state ⟨0, 0⟩).x ≤ 1 ∧ (n.state ⟨0, 0⟩).y ≤ 1))
          ⟨0, 0⟩ s) ∧
      ¬ Reachable (fun n => decide ((n.state ⟨0, 0⟩).x ≤ 1 ∧ (n.state ⟨0, 0⟩).y ≤ 1))
          ⟨0, 0⟩ ⟨5, 5⟩) :=
  ⟨by decide,
    exhausted_run (Less (ChebyshevDistance ⟨0, 0⟩ ⟨5, 5⟩)) 4 ⟨[], 0, [], [], false⟩
      ⟨[], 2, [⟨0, 1⟩, ⟨1, 0⟩, ⟨1, 1⟩, ⟨0, 0⟩], [], false⟩ ⟨0, 0⟩ ⟨5, 5⟩
      (fun n => decide ((n.state ⟨0, 0⟩).x ≤ 1 ∧ (n.state ⟨0, 0⟩).y ≤ 1))
      (fun s => decide (s.x ≤ 1 ∧ s.y ≤ 1)) (fun _ _ => rfl) (by decide) (by decide)⟩

/-- C5: with `start = (0,0)`, `goal = (2,2)`, a predicate that accepts every node, the
Chebyshev distance to the goal as heuristic and the frontier ordered by path length
plus heuristic, every run of at least two iterations ends with `found = true` and
`final_path = "33"`, whose replay from `(0,0)` is `(2,2)` and whose length `2` is the
Chebyshev distance from `(0,0)` to `(2,2)`. -/
theorem chebyshev_run (k : Nat) (e0 : AStarSEL) :
    ∃ e, AStarSEL.run (Less (ChebyshevDistance ⟨0, 0⟩ ⟨2, 2⟩)) (2 + k) e0 ⟨0, 0⟩ ⟨2, 2⟩
        (fun _ => true) = some e ∧
      e.is_found = true ∧
      e.final_path = ['3', '3'] ∧
      Node.coordinate ⟨e.final_path⟩ ⟨0, 0⟩ = some ⟨2, 2⟩ ∧
      e.final_path.length = 2 ∧
      e.final_path.length = ChebyshevDistance ⟨0, 0⟩ ⟨2, 2⟩ ⟨[]⟩ := by
  have h : AStarSEL.run (Less (ChebyshevDistance ⟨0, 0⟩ ⟨2, 2⟩)) 2 ⟨[], 0, [], [], false⟩
      ⟨0, 0⟩ ⟨2, 2⟩ (fun _ => true) =
      some ⟨[⟨['6']⟩, ⟨['7']⟩, ⟨['4']⟩, ⟨['3', '7']⟩, ⟨['8']⟩, ⟨['3', '3']⟩,
        ⟨['3', '4']⟩, ⟨['3', '5']⟩, ⟨['3', '8']⟩], 9, [⟨1, 1⟩, ⟨0, 0⟩], ['3', '3'],
        true⟩ := by decide
  refine ⟨_, run_add_fuel _ 2 k _ e0 _ _ _ _ h, ?_⟩
  decide

/-- C6, evaluated on the table as written: the symbols `'1'` and `'6'` carry the same
move, so do `'2'` and `'7'`, and no symbol moves `(5,5)` to `(4,6)` or to `(5,6)`: the
deltas `(-1,+1)` and `(0,+1)` of the 8-connected neighbourhood are missing. -/
theorem goes_repeats_two_deltas :
    (Node.goes '1').map (fun f => f ⟨5, 5⟩) = (Node.goes '6').map (fun f => f ⟨5, 5⟩) ∧
    (Node.goes '1').map (fun f => f ⟨5, 5⟩) = some ⟨4, 4⟩ ∧
    (Node.goes '2').map (fun f => f ⟨5, 5⟩) = (Node.goes '7').map (fun f => f ⟨5, 5⟩) ∧
    (Node.goes '2').map (fun f => f ⟨5, 5⟩) = some ⟨5, 4⟩ ∧
    (∀ d ∈ directions, (Node.goes d).map (fun f => f ⟨5, 5⟩) ≠ some ⟨4, 6⟩) ∧
    (∀ d ∈ directions, (Node.goes d).map (fun f => f ⟨5, 5⟩) ≠ some ⟨5, 6⟩) := by
  decide

/-- C7: for paths `p` and `q` over the symbols `'1'..'8'`, the replay of `p` from `start`
succeeds, the replay of `q` from the coordinate it reaches succeeds, and the replay of
`p ++ q` from `start` gives the same coordinate as the second one. -/
theorem coordinate_append (start : Coordinate) (p r : List Char)
    (hp : ∀ d ∈ p, d ∈ directions) (hr : ∀ d ∈ r, d ∈ directions) :
    ∃ mid fin, Node.coordinate ⟨p⟩ start = some mid ∧
      Node.coordinate ⟨r⟩ mid = some fin ∧
      Node.coordinate ⟨p ++ r⟩ start = some fin := by
  obtain ⟨mid, hmid⟩ := coordinateFrom_of_mem p hp start
  obtain ⟨fin, hfin⟩ := coordinateFrom_of_mem r hr mid
  refine ⟨mid, fin, hmid, hfin, ?_⟩
  simp [Node.coordinate, coordinateFrom_append, hmid, hfin]

/-- The replay of `"35" ++ "18"` from `(0,0)` goes through the coordinate reached by `"35"`. -/
theorem coordinate_append_witness :
    ∃ mid fin, Node.coordinate ⟨['3', '5']⟩ ⟨0, 0⟩ = some mid ∧
      Node.coordinate ⟨['1', '8']⟩ mid = some fin ∧
      Node.coordinate ⟨['3', '5'] ++ ['1', '8']⟩ ⟨0, 0⟩ = some fin :=
  coordinate_append ⟨0, 0⟩ ['3', '5'] ['1', '8'] (by decide) (by decide)

/-- C8: `children(validate)` of a node with path `p` is the list `[p+'1', ..., p+'8']`
filtered by `validate`, in that order; it has at most 8 elements, the path of each child
is `p` extended by one symbol of `'1'..'8'`, and a candidate is present iff `validate`
accepts it. -/
theorem children_spec (n : Node) (validate : Node → Bool) :
    n.children validate =
      ([⟨n.path ++ ['1']⟩, ⟨n.path ++ ['2']⟩, ⟨n.path ++ ['3']⟩, ⟨n.path ++ ['4']⟩,
        ⟨n.path ++ ['5']⟩, ⟨n.path ++ ['6']⟩, ⟨n.path ++ ['7']⟩, ⟨n.path ++ ['8']⟩] :
        List Node).filter validate ∧
    (n.children validate).length ≤ 8 ∧
    (∀ c ∈ n.children validate, ∃ d ∈ directions, c.path = n.path ++ [d]) ∧
    (∀ d ∈ directions,
      ((⟨n.path ++ [d]⟩ : Node) ∈ n.children validate ↔
        validate ⟨n.path ++ [d]⟩ = true)) := by
  refine ⟨by simp [children_eq, directions], ?_, ?_, ?_⟩
  · rw [children_eq]
    exact le_trans (List.length_filter_le _ _) (by simp [directions])
  · intro c hc
    rw [children_eq, List.mem_filter, List.mem_map] at hc
    obtain ⟨⟨d, hd, rfl⟩, _⟩ := hc
    exact ⟨d, hd, rfl⟩
  · intro d hd
    rw [children_eq, List.mem_filter, List.mem_map]
    constructor
    · intro h
      simpa using h.2
    · intro h
      exact ⟨⟨d, hd, rfl⟩, by simpa using h⟩

/-- C9, the strict expansion invariant, along the states a run passes through: from one
iteration to the next the closed set keeps all its elements; it changes only by the
insertion of the state of the popped node, and only when that state was not in it; the
states whose children are generated during the run are pairwise distinct; every node
of the frontier after an iteration was in the frontier before it or has a state
outside the closed set; and a child whose state is in the closed set leaves the engine
as it is. -/
theorem strict_expansion (less : Node → Node → Bool) (start goal : State)
    (validate : Node → Bool) (fuel : Nat) (e0 : AStarSEL) :
    List.Chain (fun a b => ∀ s ∈ a.expansions, s ∈ b.expansions) e0.reset.seed
      (AStarSEL.trace less start goal validate fuel e0.reset.seed) ∧
    List.Chain
      (fun a b => b.expansions = (a.expandedAt less start).toList ++ a.expansions ∧
        ∀ s ∈ a.expandedAt less start, s ∉ a.expansions) e0.reset.seed
      (AStarSEL.trace less start goal validate fuel e0.reset.seed) ∧
    (AStarSEL.expanded less start goal validate fuel e0.reset.seed).Nodup ∧
    List.Chain (fun a b => ∀ n ∈ b.q, n ∈ a.q ∨ n.state start ∉ b.expansions)
      e0.reset.seed (AStarSEL.trace less start goal validate fuel e0.reset.seed) ∧
    (∀ (e : AStarSEL) (c : Node), e.is_expanded start c = true → e.visit start c = e) := by
  refine ⟨?_, ?_, ?_, ?_, ?_⟩
  · refine trace_chain less start goal validate _ (fun e _ s hs => ?_) fuel _
    rw [(iteration_expansions less start validate e).1]
    exact List.mem_append_right _ hs
  · exact trace_chain less start goal validate _
      (fun e _ => iteration_expansions less start validate e) fuel _
  · exact (expanded_fresh less start goal validate fuel _).1
  · exact trace_chain less start goal validate _
      (fun e _ n hn => mem_iteration_q_closed less start validate e n hn) fuel _
  · intro e c hc
    simp [AStarSEL.visit, hc]

/-- C10: after a run, `max_q_size` is the maximum of the sizes of the frontier at the end
of each iteration of the loop (`0` when there was none), and along the run the recorded
value never decreases; the run ends in the last state of the trace. -/
theorem max_q_size_is_maximum (less : Node → Node → Bool) (fuel : Nat)
    (e0 e : AStarSEL) (start goal : State) (validate : Node → Bool)
    (hrun : AStarSEL.run less fuel e0 start goal validate = some e) :
    AStarSEL.conclude less
      ((AStarSEL.trace less start goal validate fuel e0.reset.seed).getLast?.getD
        e0.reset.seed) = e ∧
    e.max_q_size =
      ((AStarSEL.trace less start goal validate fuel e0.reset.seed).map
        (fun s => PriorityQueue.size s.q)).foldl max 0 ∧
    (AStarSEL.trace less start goal validate fuel e0.reset.seed = [] →
      e.max_q_size = 0) ∧
    List.Chain (fun a b => a.max_q_size ≤ b.max_q_size) e0.reset.seed
      (AStarSEL.trace less start goal validate fuel e0.reset.seed) := by
  unfold AStarSEL.run AStarSEL.search at hrun
  rw [Option.map_eq_some'] at hrun
  obtain ⟨e1, hloop, hconc⟩ := hrun
  have hmax : e.max_q_size =
      ((AStarSEL.trace less start goal validate fuel e0.reset.seed).map
        (fun s => PriorityQueue.size s.q)).foldl max 0 := by
    rw [← hconc, conclude_max_q_size, loop_max_q_size less start goal validate fuel _ e1 hloop]
    rfl
  refine ⟨?_, hmax, ?_, ?_⟩
  · rw [loop_eq_trace_last less start goal validate fuel _ e1 hloop, hconc]
  · intro hnil
    rw [hmax, hnil]
    rfl
  · refine trace_chain less start goal validate _ (fun a _ => ?_) fuel _
    rw [iteration_max_q_size]
    exact le_max_left _ _

/-- A run of four iterations from `(0,0)` to `(2,0)` on the board `x ≤ 2`, `y ≤ 1`, started on
an engine that recorded `7` before: it records `4`, the largest size of the frontier. -/
theorem max_q_size_is_maximum_witness :
    AStarSEL.conclude (Less (fun _ => 0))
      ((AStarSEL.trace (Less (fun _ => 0)) ⟨0, 0⟩ ⟨2, 0⟩
        (fun n => decide ((n.state ⟨0, 0⟩).x ≤ 2 ∧ (n.state ⟨0, 0⟩).y ≤ 1)) 5
        (AStarSEL.seed (AStarSEL.reset ⟨[], 7, [], [], false⟩))).getLast?.getD
        (AStarSEL.seed (AStarSEL.reset ⟨[], 7, [], [], false⟩))) =
      ⟨[⟨['3', '7', '3', '7']⟩], 4, [⟨2, 1⟩, ⟨0, 1⟩, ⟨1, 0⟩, ⟨1, 1⟩, ⟨0, 0⟩],
        ['3', '7', '3', '7'], true⟩ ∧
    (4 : Nat) =
      ((AStarSEL.trace (Less (fun _ => 0)) ⟨0, 0⟩ ⟨2, 0⟩
        (fun n => decide ((n.state ⟨0, 0⟩).x ≤ 2 ∧ (n.state ⟨0, 0⟩).y ≤ 1)) 5
        (AStarSEL.seed (AStarSEL.reset ⟨[], 7, [], [], false⟩))).map
        (fun s => PriorityQueue.size s.q)).foldl max 0 ∧
    (AStarSEL.trace (Less (fun _ => 0)) ⟨0, 0⟩ ⟨2, 0⟩
        (fun n => decide ((n.state ⟨0, 0⟩).x ≤ 2 ∧ (n.state ⟨0, 0⟩).y ≤ 1)) 5
        (AStarSEL.seed (AStarSEL.reset ⟨[], 7, [], [], false⟩)) = [] → (4 : Nat) = 0) ∧
    List.Chain (fun a b => a.max_q_size ≤ b.max_q_size)
      (AStarSEL.seed (AStarSEL.reset ⟨[], 7, [], [], false⟩))
      (AStarSEL.trace (Less (fun _ => 0)) ⟨0, 0⟩ ⟨2, 0⟩
        (fun n => decide ((n.state ⟨0, 0⟩).x ≤ 2 ∧ (n.state ⟨0, 0⟩).y ≤ 1)) 5
        (AStarSEL.seed (AStarSEL.reset ⟨[], 7, [], [], false⟩))) :=
  max_q_size_is_maximum (Less (fun _ => 0)) 5 ⟨[], 7, [], [], false⟩
    ⟨[⟨['3', '7', '3', '7']⟩], 4, [⟨2, 1⟩, ⟨0, 1⟩, ⟨1, 0⟩, ⟨1, 1⟩, ⟨0, 0⟩],
      ['3', '7', '3', '7'], true⟩ ⟨0, 0⟩ ⟨2, 0⟩
    (fun n => decide ((n.state ⟨0, 0⟩).x ≤ 2 ∧ (n.state ⟨0, 0⟩).y ≤ 1)) (by decide)

/-- C11: invoking the engine from any two prior engine states with the same `start`,
`goal` and `validate` gives the same outcome (frontier, closed set, `max_q_size`,
`final_path`, `found`), and the same states after every iteration: `reset()` leaves
nothing of the prior state. -/
theorem run_forgets_prior_state (less : Node → Node → Bool) (fuel : Nat)
    (e0 e0' : AStarSEL) (start goal : State) (validate : Node → Bool) :
    AStarSEL.run less fuel e0 start goal validate =
      AStarSEL.run less fuel e0' start goal validate ∧
    AStarSEL.trace less start goal validate fuel e0.reset.seed =
      AStarSEL.trace less start goal validate fuel e0'.reset.seed ∧
    e0.reset = e0'.reset := by
  refine ⟨?_, ?_, ?_⟩
  · unfold AStarSEL.run
    rw [reset_eq e0, reset_eq e0']
  · rw [reset_eq e0, reset_eq e0']
  · rw [reset_eq e0, reset_eq e0']

/-- C12: with `start ≠ goal` and a predicate that rejects every node, every run allowed at
least one iteration ends after exactly one iteration with `found = false`, an empty
`final_path`, the closed set `{start}` and an empty frontier. -/
theorem rejecting_predicate_run (less : Node → Node → Bool) (k : Nat) (e0 : AStarSEL)
    (start goal : State) (h : start ≠ goal) :
    AStarSEL.run less (1 + k) e0 start goal (fun _ => false) =
      some { q := [], max_q_size := 0, expansions := [start], final_path := [],
             is_found := false } ∧
    (AStarSEL.trace less start goal (fun _ => false) (1 + k) e0.reset.seed).length = 1 := by
  have hchildren : ∀ n : Node, n.children (fun _ => false) = [] := by
    intro n
    simp [children_eq]
  have hseed : e0.reset.seed =
      { q := [⟨[]⟩], max_q_size := 0, expansions := [], final_path := [],
        is_found := false } := rfl
  have hcont : AStarSEL.continues less start goal e0.reset.seed = true := by
    simp [hseed, AStarSEL.continues, PriorityQueue.empty, PriorityQueue.top, Node.state,
      Node.coordinate, coordinateFrom, h]
  have hiter : AStarSEL.iteration less start (fun _ => false) e0.reset.seed =
      { q := [], max_q_size := 0, expansions := [start], final_path := [],
        is_found := false } := by
    simp [hseed, AStarSEL.iteration, PriorityQueue.pop, PriorityQueue.top,
      AStarSEL.is_expanded, AStarSEL.expand, hchildren, AStarSEL.update_max_q_size,
      PriorityQueue.size, Node.state, Node.coordinate, coordinateFrom]
  have hstop : AStarSEL.continues less start goal
      { q := [], max_q_size := 0, expansions := [start], final_path := [],
        is_found := false } = false := by
    simp [AStarSEL.continues, PriorityQueue.empty]
  constructor
  · unfold AStarSEL.run AStarSEL.search
    rw [Nat.add_comm, AStarSEL.loop, if_pos hcont, hiter]
    cases k <;> simp [AStarSEL.loop, hstop, AStarSEL.conclude, PriorityQueue.empty]
  · rw [Nat.add_comm, AStarSEL.trace, if_pos hcont, hiter]
    cases k <;> simp [AStarSEL.trace, hstop]

/-- The run from `(3,4)` to `(0,0)` with a predicate that rejects every node. -/
theorem rejecting_predicate_run_witness :
    AStarSEL.run (Less (fun _ => 0)) (1 + 2) ⟨[⟨['5']⟩], 3, [⟨9, 9⟩], ['5'], true⟩
        ⟨3, 4⟩ ⟨0, 0⟩ (fun _ => false) =
      some { q := [], max_q_size := 0, expansions := [⟨3, 4⟩], final_path := [],
             is_found := false } ∧
    (AStarSEL.trace (Less (fun _ => 0)) ⟨3, 4⟩ ⟨0, 0⟩ (fun _ => false) (1 + 2)
      (AStarSEL.seed (AStarSEL.reset ⟨[⟨['5']⟩], 3, [⟨9, 9⟩], ['5'], true⟩))).length = 1 :=
  rejecting_predicate_run (Less (fun _ => 0)) 2 ⟨[⟨['5']⟩], 3, [⟨9, 9⟩], ['5'], true⟩
    ⟨3, 4⟩ ⟨0, 0⟩ (by decide)

/-- C13: a child whose state is not in the closed set is pushed when no entry of the
frontier has its state (the size grows by one); otherwise the first entry with its
state is replaced by the child, whatever the two priorities are (the size is unchanged,
the child is present, and when the states of the frontier were pairwise distinct the
child is the only entry with that state, so the old entry is gone); the closed set and
the statistics are not touched. -/
theorem visit_pushes_or_replaces (start : State) (e : AStarSEL) (child : Node)
    (hopen : e.is_expanded start child = false) :
    (PriorityQueue.any e.q (SameStateAs start (child.state start)) = false →
      (e.visit start child).q = e.q ++ [child] ∧
      PriorityQueue.size (e.visit start child).q = PriorityQueue.size e.q + 1) ∧
    (PriorityQueue.any e.q (SameStateAs start (child.state start)) = true →
      ∃ pre old post, e.q = pre ++ old :: post ∧
        old.state start = child.state start ∧
        (∀ n ∈ pre, n.state start ≠ child.state start) ∧
        (e.visit start child).q = pre ++ child :: post ∧
        PriorityQueue.size (e.visit start child).q = PriorityQueue.size e.q ∧
        child ∈ (e.visit start child).q ∧
        ((statesOf start e.q).Nodup →
          (∀ n ∈ (e.visit start child).q, n.state start = child.state start → n = child) ∧
          (old ≠ child → old ∉ (e.visit start child).q))) ∧
    (e.visit start child).expansions = e.expansions ∧
    (e.visit start child).max_q_size = e.max_q_size := by
  refine ⟨?_, ?_, visit_expansions start e child, visit_max_q_size start e child⟩
  · intro hany
    simp [AStarSEL.visit, hopen, hany, PriorityQueue.push, PriorityQueue.size]
  · intro hany
    obtain ⟨pre, old, post, hq, hold, hpre, hupd⟩ :=
      update_with_if_split child (SameStateAs start (child.state start)) e.q hany
    have hvisit : (e.visit start child).q = pre ++ child :: post := by
      simp [AStarSEL.visit, hopen, hany, hupd]
    have hone : (statesOf start e.q).Nodup →
        ∀ n ∈ (e.visit start child).q, n.state start = child.state start → n = child := by
      intro hnd n hn hs
      have hnd' : (statesOf start (pre ++ child :: post)).Nodup := by
        rw [← hupd, statesOf_update_with_if]
        exact hnd
      have hmem : child ∈ pre ++ child :: post := by simp
      rw [hvisit] at hn
      exact List.inj_on_of_nodup_map hnd' hn hmem hs
    refine ⟨pre, old, post, hq, by simpa [SameStateAs] using hold, ?_, hvisit, ?_, ?_, ?_⟩
    · intro n hn
      simpa [SameStateAs] using hpre n hn
    · simp [hvisit, hq, PriorityQueue.size]
    · simp [hvisit]
    · intro hnd
      refine ⟨hone hnd, fun hne hmem => hne ?_⟩
      exact hone hnd old hmem (by simpa [SameStateAs] using hold)

/-- On `replaceExample` the child `"37"`, of state `(1,0)`, takes the place of `"5"`. -/
theorem visit_pushes_or_replaces_witness :
    (replaceExample.visit ⟨0, 0⟩ ⟨['3', '7']⟩).q = [⟨['4']⟩, ⟨['3', '7']⟩] ∧
    ∃ pre old post, replaceExample.q = pre ++ old :: post ∧
      old.state ⟨0, 0⟩ = Node.state ⟨0, 0⟩ ⟨['3', '7']⟩ ∧
      (∀ n ∈ pre, n.state ⟨0, 0⟩ ≠ Node.state ⟨0, 0⟩ ⟨['3', '7']⟩) ∧
      (replaceExample.visit ⟨0, 0⟩ ⟨['3', '7']⟩).q = pre ++ ⟨['3', '7']⟩ :: post ∧
      PriorityQueue.size (replaceExample.visit ⟨0, 0⟩ ⟨['3', '7']⟩).q =
        PriorityQueue.size replaceExample.q ∧
      (⟨['3', '7']⟩ : Node) ∈ (replaceExample.visit ⟨0, 0⟩ ⟨['3', '7']⟩).q ∧
      ((statesOf ⟨0, 0⟩ replaceExample.q).Nodup →
        (∀ n ∈ (replaceExample.visit ⟨0, 0⟩ ⟨['3', '7']⟩).q,
          n.state ⟨0, 0⟩ = Node.state ⟨0, 0⟩ ⟨['3', '7']⟩ → n = ⟨['3', '7']⟩) ∧
        (old ≠ ⟨['3', '7']⟩ → old ∉ (replaceExample.visit ⟨0, 0⟩ ⟨['3', '7']⟩).q)) :=
  ⟨by decide,
    (visit_pushes_or_replaces ⟨0, 0⟩ replaceExample ⟨['3', '7']⟩ (by decide)).2.1
      (by decide)⟩

/-- C14: when all the states reachable from `start` by validated moves are among the `N`
elements of a list, the loop ends after at most `N` iterations, for every goal and
every ordering of the frontier: every run allowed `N` iterations or more has an
outcome, the same one. -/
theorem run_terminates (less : Node → Node → Bool) (e0 : AStarSEL) (start goal : State)
    (validate : Node → Bool) (l : List State)
    (hfin : ∀ s, Reachable validate start s → s ∈ l) :
    ∃ e, ∀ k, AStarSEL.run less (l.length + k) e0 start goal validate = some e ∧
      (AStarSEL.trace less start goal validate (l.length + k) e0.reset.seed).length ≤
        l.length := by
  have hopen := frontierOpen_seed start e0
  have hval := frontierValidated_seed validate e0
  have hclosed : ClosedReachable validate start e0.reset.seed :=
    ⟨by simp [AStarSEL.seed, reset_eq], fun s hs => by simp [AStarSEL.seed, reset_eq] at hs⟩
  obtain ⟨e1, hloop⟩ := loop_terminates less start goal validate l hfin l.length
    e0.reset.seed hopen hval hclosed (Nat.le_add_left _ _)
  refine ⟨e1.conclude less, fun k => ?_⟩
  have hloopk := loop_add_fuel less start goal validate l.length k _ e1 hloop
  constructor
  · simp [AStarSEL.run, AStarSEL.search, hloopk]
  · have hinv := (loop_invariant less start goal validate
      (fun a => FrontierOpen start a ∧ FrontierValidated validate a ∧
        ClosedReachable validate start a)
      (fun a ha hc =>
        ⟨frontierOpen_iteration less start goal validate a ha.1 hc,
          frontierValidated_iteration less start validate a ha.2.1,
          closedReachable_iteration less start goal validate a ha.1 ha.2.1 ha.2.2 hc⟩)
      (l.length + k) _ e1 ⟨hopen, hval, hclosed⟩ hloopk).1
    have hlen := loop_expansions_length less start goal validate (l.length + k) _ e1
      hopen hloopk
    have hsub : e1.expansions ⊆ l := fun s hs => hfin s (hinv.2.2.2 s hs)
    have hle := (List.Nodup.subperm hinv.2.2.1 hsub).length_le
    have hzero : e0.reset.seed.expansions.length = 0 := rfl
    omega

/-- On the board `x ≤ 1`, `y ≤ 1` the states reachable from `(0,0)` are among four states,
so every run towards `(5,5)` allowed four iterations or more has an outcome. -/
theorem run_terminates_witness :
    ∃ e, ∀ k, AStarSEL.run (Less (fun _ => 0))
        (([⟨0, 0⟩, ⟨1, 0⟩, ⟨0, 1⟩, ⟨1, 1⟩] : List State).length + k)
        ⟨[], 0, [], [], false⟩ ⟨0, 0⟩ ⟨5, 5⟩
        (fun n => decide ((n.state ⟨0, 0⟩).x ≤ 1 ∧ (n.state ⟨0, 0⟩).y ≤ 1)) = some e ∧
      (AStarSEL.trace (Less (fun _ => 0)) ⟨0, 0⟩ ⟨5, 5⟩
        (fun n => decide ((n.state ⟨0, 0⟩).x ≤ 1 ∧ (n.state ⟨0, 0⟩).y ≤ 1))
        (([⟨0, 0⟩, ⟨1, 0⟩, ⟨0, 1⟩, ⟨1, 1⟩] : List State).length + k)
        (AStarSEL.seed (AStarSEL.reset ⟨[], 0, [], [], false⟩))).length ≤
        ([⟨0, 0⟩, ⟨1, 0⟩, ⟨0, 1⟩, ⟨1, 1⟩] : List State).length :=
  run_terminates (Less (fun _ => 0)) ⟨[], 0, [], [], false⟩ ⟨0, 0⟩ ⟨5, 5⟩
    (fun n => decide ((n.state ⟨0, 0⟩).x ≤ 1 ∧ (n.state ⟨0, 0⟩).y ≤ 1))
    [⟨0, 0⟩, ⟨1, 0⟩, ⟨0, 1⟩, ⟨1, 1⟩]
    (fun s hs => by
      obtain ⟨p, hval, hp⟩ := hs
      exact reachable_mem_of_closed ⟨0, 0⟩ _ (fun s => decide (s.x ≤ 1 ∧ s.y ≤ 1))
        (fun _ _ => rfl) _ (by decide)
        (closedUnderMoves_spec (fun s => decide (s.x ≤ 1 ∧ s.y ≤ 1))
          [⟨0, 0⟩, ⟨1, 0⟩, ⟨0, 1⟩, ⟨1, 1⟩] (by decide)) p s hval hp)

/-- C15: in every state a run passes through (before the first iteration and after each
one) no two nodes of the frontier have the same state and no node of the frontier has a
state of the closed set; so in every iteration the popped node is the top and passes the
test `!is_expanded(curr)`, its state is inserted, the closed set has `i` elements after
the `i`-th iteration, and at the end its size is the number of iterations. -/
theorem frontier_invariant (less : Node → Node → Bool) (fuel : Nat) (e0 e : AStarSEL)
    (start goal : State) (validate : Node → Bool)
    (hrun : AStarSEL.run less fuel e0 start goal validate = some e) :
    (∀ a ∈ e0.reset.seed :: AStarSEL.trace less start goal validate fuel e0.reset.seed,
      (statesOf start a.q).Nodup ∧ ∀ n ∈ a.q, n.state start ∉ a.expansions) ∧
    List.Chain
      (fun a b => ∃ t, PriorityQueue.top less a.q = some t ∧
        a.is_expanded start t = false ∧
        b.expansions = t.state start :: a.expansions)
      e0.reset.seed (AStarSEL.trace less start goal validate fuel e0.reset.seed) ∧
    (AStarSEL.trace less start goal validate fuel e0.reset.seed).map
        (fun s => s.expansions.length) =
      List.range' 1 (AStarSEL.trace less start goal validate fuel e0.reset.seed).length ∧
    e.expansions.length =
      (AStarSEL.trace less start goal validate fuel e0.reset.seed).length := by
  have hopen := frontierOpen_seed start e0
  refine ⟨?_, ?_, ?_, ?_⟩
  · intro a ha
    have h := trace_forall less start goal validate (FrontierOpen start)
      (fun b hb hc => frontierOpen_iteration less start goal validate b hb hc) fuel _
      hopen a ha
    exact ⟨h.1, fun n hn => h.2 _ (List.mem_map.2 ⟨n, hn, rfl⟩)⟩
  · refine trace_chain_of_invariant less start goal validate (FrontierOpen start) _
      (fun b hb hc => frontierOpen_iteration less start goal validate b hb hc)
      (fun b hb hc => ?_) fuel _ hopen
    obtain ⟨t, ht, htop, hexp⟩ := expandedAt_open less start goal b hb hc
    refine ⟨t, htop, ?_, ?_⟩
    · rw [← Bool.not_eq_true, is_expanded_iff]
      exact hb.2 _ (List.mem_map.2 ⟨t, ht, rfl⟩)
    · rw [(iteration_expansions less start validate b).1, hexp]
      rfl
  · exact trace_expansions_length less start goal validate fuel _ hopen
  · obtain ⟨e1, hloop, hexp, _, _⟩ := run_cases less fuel e0 e start goal validate hrun
    rw [hexp, loop_expansions_length less start goal validate fuel _ e1 hopen hloop]
    simp [AStarSEL.seed, reset_eq]

/-- The run from `(0,0)` to `(2,0)` on the board `x ≤ 2`, `y ≤ 1` takes five iterations
and closes five states, one in each iteration. -/
theorem frontier_invariant_witness :
    (∀ a ∈ AStarSEL.seed (AStarSEL.reset ⟨[], 0, [], [], false⟩) ::
        AStarSEL.trace (Less (fun _ => 0)) ⟨0, 0⟩ ⟨2, 0⟩
          (fun n => decide ((n.state ⟨0, 0⟩).x ≤ 2 ∧ (n.state ⟨0, 0⟩).y ≤ 1)) 5
          (AStarSEL.seed (AStarSEL.reset ⟨[], 0, [], [], false⟩)),
      (statesOf ⟨0, 0⟩ a.q).Nodup ∧ ∀ n ∈ a.q, n.state ⟨0, 0⟩ ∉ a.expansions) ∧
    List.Chain
      (fun a b => ∃ t, PriorityQueue.top (Less (fun _ => 0)) a.q = some t ∧
        a.is_expanded ⟨0, 0⟩ t = false ∧
        b.expansions = t.state ⟨0, 0⟩ :: a.expansions)
      (AStarSEL.seed (AStarSEL.reset ⟨[], 0, [], [], false⟩))
      (AStarSEL.trace (Less (fun _ => 0)) ⟨0, 0⟩ ⟨2, 0⟩
        (fun n => decide ((n.state ⟨0, 0⟩).x ≤ 2 ∧ (n.state ⟨0, 0⟩).y ≤ 1)) 5
        (AStarSEL.seed (AStarSEL.reset ⟨[], 0, [], [], false⟩))) ∧
    (AStarSEL.trace (Less (fun _ => 0)) ⟨0, 0⟩ ⟨2, 0⟩
        (fun n => decide ((n.state ⟨0, 0⟩).x ≤ 2 ∧ (n.state ⟨0, 0⟩).y ≤ 1)) 5
        (AStarSEL.seed (AStarSEL.reset ⟨[], 0, [], [], false⟩))).map
        (fun s => s.expansions.length) =
      List.range' 1 (AStarSEL.trace (Less (fun _ => 0)) ⟨0, 0⟩ ⟨2, 0⟩
        (fun n => decide ((n.state ⟨0, 0⟩).x ≤ 2 ∧ (n.state ⟨0, 0⟩).y ≤ 1)) 5
        (AStarSEL.seed (AStarSEL.reset ⟨[], 0, [], [], false⟩))).length ∧
    ([⟨2, 1⟩, ⟨0, 1⟩, ⟨1, 0⟩, ⟨1, 1⟩, ⟨0, 0⟩] : List State).length =
      (AStarSEL.trace (Less (fun _ => 0)) ⟨0, 0⟩ ⟨2, 0⟩
        (fun n => decide ((n.state ⟨0, 0⟩).x ≤ 2 ∧ (n.state ⟨0, 0⟩).y ≤ 1)) 5
        (AStarSEL.seed (AStarSEL.reset ⟨[], 0, [], [], false⟩))).length :=
  frontier_invariant (Less (fun _ => 0)) 5 ⟨[], 0, [], [], false⟩
    ⟨[⟨['3', '7', '3', '7']⟩], 4, [⟨2, 1⟩, ⟨0, 1⟩, ⟨1, 0⟩, ⟨1, 1⟩, ⟨0, 0⟩],
      ['3', '7', '3', '7'], true⟩ ⟨0, 0⟩ ⟨2, 0⟩
    (fun n => decide ((n.state ⟨0, 0⟩).x ≤ 2 ∧ (n.state ⟨0, 0⟩).y ≤ 1)) (by decide)

/-- C16: for a predicate whose verdict depends only on the state of the node, in every
state a run passes through (before the first iteration and after each one) no path of
the frontier contains `'1'` or `'2'`, and the `final_path` of a run contains neither. -/
theorem no_one_or_two (less : Node → Node → Bool) (fuel : Nat) (e0 : AStarSEL)
    (start goal : State) (validate : Node → Bool) (vp : State → Bool)
    (hv : ∀ n : Node, (∀ d ∈ n.path, d ∈ directions) → validate n = vp (n.state start)) :
    (∀ a ∈ e0.reset.seed :: AStarSEL.trace less start goal validate fuel e0.reset.seed,
      ∀ n ∈ a.q, '1' ∉ n.path ∧ '2' ∉ n.path) ∧
    (∀ e, AStarSEL.run less fuel e0 start goal validate = some e →
      '1' ∉ e.final_path ∧ '2' ∉ e.final_path) := by
  have hstep : ∀ a : AStarSEL, (FrontierOpen start a ∧ SymbolsOk a ∧ FrontierClean a) →
      a.continues less start goal = true →
      (FrontierOpen start (a.iteration less start validate) ∧
        SymbolsOk (a.iteration less start validate) ∧
        FrontierClean (a.iteration less start validate)) :=
    fun a ha hc =>
      ⟨frontierOpen_iteration less start goal validate a ha.1 hc,
        symbolsOk_iteration less start validate a ha.2.1,
        frontierClean_iteration less start goal validate vp hv a ha.1 ha.2.1 ha.2.2 hc⟩
  have hseed : FrontierOpen start e0.reset.seed ∧ SymbolsOk e0.reset.seed ∧
      FrontierClean e0.reset.seed := by
    refine ⟨frontierOpen_seed start e0, ?_, ?_⟩
    · intro n hn
      simp only [AStarSEL.seed, reset_eq, PriorityQueue.push, List.nil_append,
        List.mem_singleton] at hn
      simp [hn]
    · intro n hn
      simp only [AStarSEL.seed, reset_eq, PriorityQueue.push, List.nil_append,
        List.mem_singleton] at hn
      simp [hn]
  constructor
  · intro a ha
    exact (trace_forall less start goal validate _ hstep fuel _ hseed a ha).2.2
  · intro e hrun
    obtain ⟨e1, hloop, _, _, hcase⟩ := run_cases less fuel e0 e start goal validate hrun
    have hinv := (loop_invariant less start goal validate _ hstep fuel _ e1 hseed hloop).1
    rcases hcase with ⟨_, _, hpath⟩ | ⟨t, ht, _, _, hpath⟩
    · simp [hpath]
    · rw [hpath]
      exact hinv.2.2 t ht

/-- The run from `(0,0)` to `(2,0)` on the board `x ≤ 2`, `y ≤ 1`: its `final_path` is
`"3737"`, and no path of a frontier it passes through contains `'1'` or `'2'`. -/
theorem no_one_or_two_witness :
    AStarSEL.run (Less (fun _ => 0)) 5 ⟨[], 0, [], [], false⟩ ⟨0, 0⟩ ⟨2, 0⟩
        (fun n => decide ((n.state ⟨0, 0⟩).x ≤ 2 ∧ (n.state ⟨0, 0⟩).y ≤ 1)) =
      some ⟨[⟨['3', '7', '3', '7']⟩], 4, [⟨2, 1⟩, ⟨0, 1⟩, ⟨1, 0⟩, ⟨1, 1⟩, ⟨0, 0⟩],
        ['3', '7', '3', '7'], true⟩ ∧
    ((∀ a ∈ AStarSEL.seed (AStarSEL.reset ⟨[], 0, [], [], false⟩) ::
        AStarSEL.trace (Less (fun _ => 0)) ⟨0, 0⟩ ⟨2, 0⟩
          (fun n => decide ((n.state ⟨0, 0⟩).x ≤ 2 ∧ (n.state ⟨0, 0⟩).y ≤ 1)) 5
          (AStarSEL.seed (AStarSEL.reset ⟨[], 0, [], [], false⟩)),
      ∀ n ∈ a.q, '1' ∉ n.path ∧ '2' ∉ n.path) ∧
    (∀ e, AStarSEL.run (Less (fun _ => 0)) 5 ⟨[], 0, [], [], false⟩ ⟨0, 0⟩ ⟨2, 0⟩
        (fun n => decide ((n.state ⟨0, 0⟩).x ≤ 2 ∧ (n.state ⟨0, 0⟩).y ≤ 1)) = some e →
      '1' ∉ e.final_path ∧ '2' ∉ e.final_path)) :=
  ⟨by decide,
    no_one_or_two (Less (fun _ => 0)) 5 ⟨[], 0, [], [], false⟩ ⟨0, 0⟩ ⟨2, 0⟩
      (fun n => decide ((n.state ⟨0, 0⟩).x ≤ 2 ∧ (n.state ⟨0, 0⟩).y ≤ 1))
      (fun s => decide (s.x ≤ 2 ∧ s.y ≤ 1)) (fun _ _ => rfl)⟩

/-- C17: `Node::coordinate` succeeds iff every symbol of the path is one of `'1'..'8'`;
and in every state a run passes through, every node of the frontier has such a path, its
replay succeeds and is its state, and so does the replay of each of the eight candidates
that `children` builds from it. -/
theorem lookup_never_fails :
    (∀ (n : Node) (start : Coordinate),
      (n.coordinate start).isSome = true ↔ ∀ d ∈ n.path, d ∈ directions) ∧
    (∀ (less : Node → Node → Bool) (start goal : State) (validate : Node → Bool)
      (fuel : Nat) (e0 : AStarSEL),
      ∀ e ∈ e0.reset.seed :: AStarSEL.trace less start goal validate fuel e0.reset.seed,
        ∀ n ∈ e.q, (∀ d ∈ n.path, d ∈ directions) ∧
          n.coordinate start = some (n.state start) ∧
          ∀ d ∈ directions, (Node.coordinate ⟨n.path ++ [d]⟩ start).isSome = true) := by
  constructor
  · intro n start
    constructor
    · intro h
      obtain ⟨r, hr⟩ := Option.isSome_iff_exists.1 h
      exact mem_of_coordinateFrom n.path start r hr
    · intro h
      obtain ⟨r, hr⟩ := coordinateFrom_of_mem n.path h start
      simp [Node.coordinate, hr]
  · intro less start goal validate fuel e0 e he n hn
    have hsym : SymbolsOk e :=
      trace_forall less start goal validate SymbolsOk
        (fun a ha _ => symbolsOk_iteration less start validate a ha) fuel _
        (by
          intro m hm
          simp only [AStarSEL.seed, reset_eq, PriorityQueue.push, List.nil_append,
            List.mem_singleton] at hm
          simp [hm]) e he
    refine ⟨hsym n hn, state_eq_of_symbols start n (hsym n hn), ?_⟩
    intro d hd
    obtain ⟨r, hr⟩ := coordinateFrom_of_mem (n.path ++ [d])
      (by
        intro a ha
        rcases List.mem_append.1 ha with ha | ha
        · exact hsym n hn a ha
        · simp only [List.mem_singleton] at ha
          exact ha ▸ hd) start
    simp [Node.coordinate, hr]

/-- C18: every move of the table adds a constant to each component modulo `2^64` (the
constant `2^64 - 1` for a step of `-1`, so the step `'4'` from `(0,0)` gives
`(2^64 - 1, 0)`); and for two paths over `'1'..'8'` that are permutations of each other,
`Node::coordinate` succeeds on both and returns the same coordinate. -/
theorem coordinate_perm (start : Coordinate) (p r : List Char) (hperm : List.Perm p r)
    (hp : ∀ d ∈ p, d ∈ directions) :
    (∀ (d : Char) (f : Coordinate → Coordinate), Node.goes d = some f →
      ∃ a b, (a = 0 ∨ a = 1 ∨ a = 2 ^ 64 - 1) ∧ (b = 0 ∨ b = 1 ∨ b = 2 ^ 64 - 1) ∧
        ∀ c, f c = ⟨(c.x + a) % 2 ^ 64, (c.y + b) % 2 ^ 64⟩) ∧
    Node.coordinate ⟨['4']⟩ ⟨0, 0⟩ = some ⟨2 ^ 64 - 1, 0⟩ ∧
    ∃ c, Node.coordinate ⟨p⟩ start = some c ∧ Node.coordinate ⟨r⟩ start = some c := by
  refine ⟨fun d f h => ?_, by decide, ?_⟩
  · simpa [wordSize] using goes_adds d f h
  · obtain ⟨c, hc⟩ := coordinateFrom_of_mem p hp start
    refine ⟨c, hc, ?_⟩
    rw [← hc]
    exact (coordinateFrom_perm p r hperm start).symm

/-- The paths `"4381"` and `"1348"` from `(0,0)`: both replays wrap around and agree. -/
theorem coordinate_perm_witness :
    (∀ (d : Char) (f : Coordinate → Coordinate), Node.goes d = some f →
      ∃ a b, (a = 0 ∨ a = 1 ∨ a = 2 ^ 64 - 1) ∧ (b = 0 ∨ b = 1 ∨ b = 2 ^ 64 - 1) ∧
        ∀ c, f c = ⟨(c.x + a) % 2 ^ 64, (c.y + b) % 2 ^ 64⟩) ∧
    Node.coordinate ⟨['4']⟩ ⟨0, 0⟩ = some ⟨2 ^ 64 - 1, 0⟩ ∧
    ∃ c, Node.coordinate ⟨['4', '3', '8', '1']⟩ ⟨0, 0⟩ = some c ∧
      Node.coordinate ⟨['1', '3', '4', '8']⟩ ⟨0, 0⟩ = some c :=
  coordinate_perm ⟨0, 0⟩ ['4', '3', '8', '1'] ['1', '3', '4', '8'] (by decide) (by decide)

end search
